import Mathlib

/-!
JeremyOT/jwt: a signed, optionally encrypted token codec.

Shallow embedding of `src/jwt.go` (`Pad`, `Unpad`, `Tokenizer.Tokenize`,
`Tokenizer.Load`) together with the parts of the Go standard library whose
behaviour decides the outcome of those functions:

* `encoding/base64` (`URLEncoding.WithPadding('.')`, non-strict) is modelled
  concretely: `EncodeToString` and `DecodeString`.
* `crypto/hmac` is modelled concretely over an abstract hash (RFC 2104 key
  normalisation, block size 64).
* `crypto/cipher` CBC mode is modelled concretely over an abstract block
  cipher, including the panics of `CryptBlocks`.
* `crypto/sha256`, the AES block function and `encoding/json` are parameters
  (`Crypto`, `Codec`).

Go run-time faults (slice bounds, negative `make`, `CryptBlocks` on partial
blocks) are the `panic` outcome of `GoResult`.
-/

deriving instance DecidableEq for Except

namespace Jwt

/-- A byte of a Go `[]byte` or of a Go `string`. -/
abbrev Byte := Fin 256

/-- Conversion `byte(n)` of an unsigned integer: the low eight bits. -/
def byte (n : Nat) : Byte := ⟨n % 256, Nat.mod_lt n (by decide)⟩

/-! ## encoding/base64 -/

/-- The alphabet `encodeURL` of `encoding/base64`. -/
def encodeURL : List Byte :=
  "ABCDEFGHIJKLMNOPQRSTUVWXYZabcdefghijklmnopqrstuvwxyz0123456789-_".toList.map
    (fun ch => byte ch.toNat)

/-- The padding character given to `WithPadding` in `Base64Encoding`: `'.'`. -/
def padChar : Byte := 46

/-- Table lookup `enc.encode[i]`; the index is always masked with `0x3F`. -/
def encodeChar (i : Nat) : Byte := encodeURL.getD (i % 64) 0

/-- Table `enc.decodeMap`: the index of an alphabet character, `0xFF` for
every other byte. -/
def decodeMap (ch : Byte) : Nat :=
  let i := encodeURL.indexOf ch
  if i < 64 then i else 0xFF

/-- `Base64Encoding.EncodeToString`: three bytes become four characters; a
final group of one or two bytes is completed with the padding character. -/
def EncodeToString : List Byte → List Byte
  | a :: b :: c :: rest =>
    let val := a.val * 65536 + b.val * 256 + c.val
    encodeChar (val / 262144 % 64) :: encodeChar (val / 4096 % 64) ::
      encodeChar (val / 64 % 64) :: encodeChar (val % 64) :: EncodeToString rest
  | [a, b] =>
    let val := a.val * 65536 + b.val * 256
    [encodeChar (val / 262144 % 64), encodeChar (val / 4096 % 64),
      encodeChar (val / 64 % 64), padChar]
  | [a] =>
    let val := a.val * 65536
    [encodeChar (val / 262144 % 64), encodeChar (val / 4096 % 64), padChar, padChar]
  | [] => []

/-- The end of `decodeQuantum`: the collected 6-bit values `dbuf` (missing
ones are zero) are packed into 24 bits and the first `dlen - 1` bytes are
written. The decoder is not strict, so unused low bits are not examined. -/
def quantumBytes (dbuf : List Nat) (dlen : Nat) : List Byte :=
  let val := dbuf.getD 0 0 * 262144 + dbuf.getD 1 0 * 4096 + dbuf.getD 2 0 * 64 + dbuf.getD 3 0
  [byte (val / 65536), byte (val / 256), byte val].take (dlen - 1)

/-- The loop `for si < len(src) && (src[si] == '\n' || src[si] == '\r')`. -/
def skipNewlines : List Byte → List Byte
  | [] => []
  | ch :: rest => if ch = 10 ∨ ch = 13 then skipNewlines rest else ch :: rest

/-- The error `base64.CorruptInputError` (its offset is not modelled). -/
inductive CorruptInputError
  | corrupt
deriving DecidableEq, Repr

/-- `Encoding.Decode` with `decodeQuantum` inlined: `out` holds the bytes
decoded so far, `dbuf` the 6-bit values of the quantum being read (`j` of the
source is `dbuf.length`). The 8- and 4-character fast paths of the source
decode exactly what this loop decodes. -/
def decodeLoop (out : List Byte) (dbuf : List Nat) : List Byte → Except CorruptInputError (List Byte)
  | [] => if dbuf.length = 0 then .ok out else .error .corrupt
  | ch :: src =>
    if decodeMap ch ≠ 0xFF then
      if dbuf.length = 3 then decodeLoop (out ++ quantumBytes (dbuf ++ [decodeMap ch]) 4) [] src
      else decodeLoop out (dbuf ++ [decodeMap ch]) src
    else if ch = 10 ∨ ch = 13 then decodeLoop out dbuf src
    else if ch ≠ padChar then .error .corrupt
    else if dbuf.length < 2 then .error .corrupt
    else if dbuf.length = 2 then
      match skipNewlines src with
      | [] => .error .corrupt
      | ch2 :: src2 =>
        if ch2 ≠ padChar then .error .corrupt
        else if skipNewlines src2 ≠ [] then .error .corrupt
        else .ok (out ++ quantumBytes dbuf 2)
    else
      if skipNewlines src ≠ [] then .error .corrupt
      else .ok (out ++ quantumBytes dbuf 3)

/-- `Base64Encoding.DecodeString`. -/
def DecodeString (s : List Byte) : Except CorruptInputError (List Byte) :=
  decodeLoop [] [] s

/-! ## Results of Go calls -/

/-- Outcome of a Go call of type `(T, error)` (or of a call with an output
parameter of type `T` that returns `error`): either the call panics, or it
returns the value `val` together with an `error` that is `none` for `nil`. -/
inductive GoResult (α ε : Type)
  | panic : GoResult α ε
  | ret (val : α) (err : Option ε) : GoResult α ε
deriving DecidableEq, Repr

/-- The errors `Tokenize` and `Load` can return. `codec e` is an error of the
external serializer (`encoding/json`), `entropy` an error of
`io.ReadFull(rand.Reader, iv)`. -/
inductive Error (E : Type)
  | corruptInput : Error E
  | keySize (n : Nat) : Error E
  | entropy : Error E
  | ErrInvalidSignature : Error E
  | codec (e : E) : Error E
deriving DecidableEq, Repr

/-! ## Library parameters -/

/-- The primitives taken from the Go standard library: `sha256` is the digest
of `crypto/sha256` over the bytes written, `aesEncrypt key` and
`aesDecrypt key` are `Encrypt` and `Decrypt` of the `cipher.Block` that
`aes.NewCipher(key)` returns. -/
structure Crypto where
  sha256 : List Byte → List Byte
  aesEncrypt : List Byte → List Byte → List Byte
  aesDecrypt : List Byte → List Byte → List Byte

/-- Documented contracts of the primitives: a digest has `sha256.Size = 32`
bytes, the block functions map 16-byte blocks to 16-byte blocks, and
decryption inverts encryption under the same key of a valid length. -/
structure Crypto.Valid (c : Crypto) : Prop where
  sha256_size : ∀ m, (c.sha256 m).length = 32
  encrypt_size : ∀ k b, b.length = 16 → (c.aesEncrypt k b).length = 16
  decrypt_size : ∀ k b, b.length = 16 → (c.aesDecrypt k b).length = 16
  decrypt_encrypt : ∀ k b, (k.length = 16 ∨ k.length = 24 ∨ k.length = 32) →
    b.length = 16 → c.aesDecrypt k (c.aesEncrypt k b) = b

/-- The external serializer: `marshal` is `json.Marshal`; `unmarshal data out`
is `json.Unmarshal(data, token)` where `out` is the value `token` points to
before the call, and the result is that value after the call with the
returned error. The errors of the serializer are the values of `E`: they are
never the package's own `ErrInvalidSignature`. -/
structure Codec (P E : Type) where
  marshal : P → Except E (List Byte)
  unmarshal : List Byte → P → P × Option E

/-! ## crypto/hmac -/

/-- Byte-wise exclusive or of two byte strings (up to the shorter length). -/
def xorBytes (a b : List Byte) : List Byte := List.zipWith (fun x y => x ^^^ y) a b

/-- `hmac.New(sha256.New, key)` followed by `Write(msg)` and `Sum(nil)`: a key
longer than the block size (64) is hashed, the key is copied into
zero-initialised `ipad` and `opad` of 64 bytes, which are then XORed with
`0x36` and `0x5c`. -/
def hmacSum (c : Crypto) (key msg : List Byte) : List Byte :=
  let key1 := if key.length > 64 then c.sha256 key else key
  let padded := (key1 ++ List.replicate (64 - key1.length) 0).take 64
  let ipad := padded.map (fun x => x ^^^ 0x36)
  let opad := padded.map (fun x => x ^^^ 0x5c)
  c.sha256 (opad ++ c.sha256 (ipad ++ msg))

/-! ## crypto/aes and crypto/cipher -/

/-- The constant `aes.BlockSize`. -/
def BlockSize : Nat := 16

/-- The constant `sha256.Size`. -/
def Size : Nat := 32

/-- `aes.NewCipher(key)`: `KeySizeError(len(key))` unless the key has 16, 24
or 32 bytes. The cipher itself is represented by its key. -/
def NewCipher {E : Type} (key : List Byte) : Except (Error E) (List Byte) :=
  if key.length = 16 ∨ key.length = 24 ∨ key.length = 32 then .ok key
  else .error (.keySize key.length)

/-- Body of `cbcEncrypter.CryptBlocks` on `n` blocks: each plaintext block is
XORed with the previous ciphertext block (the IV at first) and encrypted. -/
def encryptBlocks (enc : List Byte → List Byte) : Nat → List Byte → List Byte → List Byte
  | 0, _, _ => []
  | n + 1, prev, src =>
    let blk := enc (xorBytes (src.take BlockSize) prev)
    blk ++ encryptBlocks enc n blk (src.drop BlockSize)

/-- Body of `cbcDecrypter.CryptBlocks` on `n` blocks: each ciphertext block is
decrypted and XORed with the previous ciphertext block (the IV at first). -/
def decryptBlocks (dec : List Byte → List Byte) : Nat → List Byte → List Byte → List Byte
  | 0, _, _ => []
  | n + 1, prev, src =>
    xorBytes (dec (src.take BlockSize)) prev ++
      decryptBlocks dec n (src.take BlockSize) (src.drop BlockSize)

/-- `cipher.NewCBCEncrypter(block, iv).CryptBlocks(dst, src)` with `dst` of the
length of `src`: `none` is the panic "input not full blocks". -/
def cbcEncrypt (c : Crypto) (key iv src : List Byte) : Option (List Byte) :=
  if src.length % BlockSize ≠ 0 then none
  else some (encryptBlocks (c.aesEncrypt key) (src.length / BlockSize) iv src)

/-- `cipher.NewCBCDecrypter(block, iv).CryptBlocks(dst, src)` with `dst` of the
length of `src`: `none` is the panic "input not full blocks". -/
def cbcDecrypt (c : Crypto) (key iv src : List Byte) : Option (List Byte) :=
  if src.length % BlockSize ≠ 0 then none
  else some (decryptBlocks (c.aesDecrypt key) (src.length / BlockSize) iv src)

/-- `io.ReadFull(rand.Reader, iv)` for the 16-byte `iv`, where `entropy` is
what the reader can deliver: the first 16 bytes, or an error. -/
def readIV (entropy : List Byte) : Option (List Byte) :=
  if entropy.length < BlockSize then none else some (entropy.take BlockSize)

/-! ## src/jwt.go -/

/-- The type `Tokenizer`. `EncryptionKey = none` is the `nil` slice. -/
structure Tokenizer where
  SigningKey : List Byte
  EncryptionKey : Option (List Byte)
deriving DecidableEq, Repr

/-- The function `New`. -/
def New (signingKey : List Byte) (encryptionKey : Option (List Byte)) : Tokenizer :=
  { SigningKey := signingKey, EncryptionKey := encryptionKey }

/-- The function `Pad`. -/
def Pad (data : List Byte) : List Byte :=
  let padSize := BlockSize - data.length % BlockSize
  let padding := List.replicate padSize (byte padSize)
  data ++ padding

/-- The function `Unpad`; `none` is a run-time panic: `data[l-1]` on an empty
slice, or a negative upper slice bound. -/
def Unpad (data : List Byte) : Option (List Byte) :=
  let l := data.length
  if l = 0 then none
  else
    let p := (data.getD (l - 1) 0).val
    if l < p then none else some (data.take (l - p))

/-- The method `Tokenizer.Tokenize`. `entropy` is what `rand.Reader` can
deliver to this call. -/
def Tokenize {P E : Type} (c : Crypto) (codec : Codec P E) (t : Tokenizer)
    (entropy : List Byte) (token : P) : GoResult (List Byte) (Error E) :=
  match codec.marshal token with
  | .error e => .ret [] (some (.codec e))
  | .ok jwt =>
    let messageMAC := hmacSum c t.SigningKey jwt
    let signedToken := messageMAC ++ jwt
    match t.EncryptionKey with
    | none => .ret (EncodeToString signedToken) none
    | some key =>
      match NewCipher key with
      | .error e => .ret [] (some e)
      | .ok block =>
        let padded := Pad signedToken
        match readIV entropy with
        | none => .ret [] (some .entropy)
        | some iv =>
          match cbcEncrypt c block iv padded with
          | none => .panic
          | some body => .ret (EncodeToString (iv ++ body)) none

/-- Lines 102-109 of `Tokenizer.Load`: split the signed block, verify the MAC,
deserialize. `signedToken[:32]` is bounded by the capacity and
`signedToken[32:]` by the length of the slice, so a block shorter than 32
bytes panics on one of the two lines. -/
def verifyAndUnmarshal {P E : Type} (c : Crypto) (codec : Codec P E) (t : Tokenizer)
    (signedToken : List Byte) (token : P) : GoResult P (Error E) :=
  if signedToken.length < Size then .panic
  else
    let messageMAC := signedToken.take Size
    let jwt := signedToken.drop Size
    if messageMAC ≠ hmacSum c t.SigningKey jwt then .ret token (some .ErrInvalidSignature)
    else
      let r := codec.unmarshal jwt token
      .ret r.1 (r.2.map .codec)

/-- Lines 85-101 of `Tokenizer.Load`: text-decode the token and, with an
encryption key, decrypt and unpad; the value returned without error is the
`signedToken` that line 102 receives. `signedToken[:16]` (bounded by the
capacity) or `make([]byte, len-16)` panics when fewer than 16 bytes were
decoded; `CryptBlocks` panics on a partial block;
`decrypted[len(decrypted)-1]` panics when there is no ciphertext. -/
def loadSignedToken {E : Type} (c : Crypto) (t : Tokenizer) (payload : List Byte) :
    GoResult (List Byte) (Error E) :=
  match DecodeString payload with
  | .error _ => .ret [] (some .corruptInput)
  | .ok signedToken =>
    match t.EncryptionKey with
    | none => .ret signedToken none
    | some key =>
      match NewCipher key with
      | .error e => .ret [] (some e)
      | .ok block =>
        if signedToken.length < BlockSize then .panic
        else
          match cbcDecrypt c block (signedToken.take BlockSize) (signedToken.drop BlockSize) with
          | none => .panic
          | some decrypted =>
            if decrypted.length = 0 then .panic
            else if (decrypted.getD (decrypted.length - 1) 0).val > 16 then
              .ret [] (some .ErrInvalidSignature)
            else
              match Unpad decrypted with
              | none => .panic
              | some signedToken1 => .ret signedToken1 none

/-- The method `Tokenizer.Load`; `token` is the value behind the output
pointer before the call, the result carries that value after the call. An
error of lines 85-101 is returned with the output untouched. -/
def Load {P E : Type} (c : Crypto) (codec : Codec P E) (t : Tokenizer)
    (payload : List Byte) (token : P) : GoResult P (Error E) :=
  match loadSignedToken c t payload with
  | .panic => .panic
  | .ret _ (some e) => .ret token (some e)
  | .ret signedToken none => verifyAndUnmarshal c codec t signedToken token

/-! ## Instances used to evaluate the definitions -/

/-- A stand-in digest of 32 bytes: the byte sum and the length of the message
followed by zeros. -/
def toySha (m : List Byte) : List Byte :=
  byte (m.foldl (fun acc x => acc + x.val) 0) :: byte m.length :: List.replicate 30 0

/-- A stand-in block cipher: every byte of the block is XORed with the first
key byte and the block is reversed. -/
def toyEncrypt (key blk : List Byte) : List Byte :=
  (blk.map (fun x => x ^^^ key.getD 0 0)).reverse

/-- Inverse of `toyEncrypt`. -/
def toyDecrypt (key blk : List Byte) : List Byte :=
  (blk.reverse).map (fun x => x ^^^ key.getD 0 0)

/-- The stand-in primitives. -/
def toyCrypto : Crypto := { sha256 := toySha, aesEncrypt := toyEncrypt, aesDecrypt := toyDecrypt }

/-- A serializer whose payloads are byte strings: `marshal` is the identity and
`unmarshal` accepts exactly the strings that start with `'{'`. -/
def rawCodec : Codec (List Byte) Unit :=
  { marshal := fun p => .ok p
    unmarshal := fun data out => if data.head? = some 123 then (data, none) else (out, some ()) }

/-- The serialized bytes used to evaluate C9: `'{'` followed by fifteen zero
bytes. -/
def zeroTail : List Byte := 123 :: List.replicate 15 0

/-- The envelope used to evaluate C9: an IV of sixteen bytes 9 followed by the
CBC encryption, without padding, of `HMAC || zeroTail` (48 bytes). -/
def zeroPadEnvelope : List Byte :=
  List.replicate 16 9 ++
    encryptBlocks (toyCrypto.aesEncrypt (List.replicate 16 7)) 3 (List.replicate 16 9)
      (hmacSum toyCrypto [1, 2, 3] zeroTail ++ zeroTail)

/-- A serializer that behaves as `json.Unmarshal` does on a value that does
not fit the target: it stores what it decoded in the output and still returns
an error. Here the data is stored, and the error is returned when the data
does not end in `'}'`. -/
def lossyCodec : Codec (List Byte) Unit :=
  { marshal := fun p => .ok p
    unmarshal := fun data _ => (data, if data.getLast? = some 125 then none else some ()) }

/-- The block used to evaluate C18: `HMAC || {}` followed by thirteen zero
bytes and the byte 14, that is, 14 bytes of padding that are not all 14. -/
def sloppyBlock : List Byte :=
  hmacSum toyCrypto [1, 2, 3] [123, 125] ++ [123, 125] ++ List.replicate 13 0 ++ [14]

/-- The envelope used to evaluate C18: an IV of sixteen bytes 9 followed by the
CBC encryption of `sloppyBlock`. -/
def sloppyEnvelope : List Byte :=
  List.replicate 16 9 ++
    encryptBlocks (toyCrypto.aesEncrypt (List.replicate 16 7)) 3 (List.replicate 16 9) sloppyBlock

/-- The envelope `Tokenize` makes for `{}` with the same keys and IV as
`sloppyEnvelope`. -/
def paddedEnvelope : List Byte :=
  List.replicate 16 9 ++
    encryptBlocks (toyCrypto.aesEncrypt (List.replicate 16 7)) 3 (List.replicate 16 9)
      (Pad (hmacSum toyCrypto [1, 2, 3] [123, 125] ++ [123, 125]))

/-! ## Reference definitions and predicates of the specification -/

/-- Reference definition of the padding scheme in the words of the
specification: the padding length is `p = blockSize - (len mod blockSize)` and
`p` bytes each holding the value `p` are appended. -/
def padReference (data : List Byte) : List Byte :=
  data ++ List.replicate (16 - data.length % 16) ⟨16 - data.length % 16, by omega⟩

/-- A character of the URL-safe base64 alphabet: `A-Z`, `a-z`, `0-9`, `'-'`
or `'_'`. -/
def isURLSafeChar (ch : Byte) : Prop :=
  (65 ≤ ch.val ∧ ch.val ≤ 90) ∨ (97 ≤ ch.val ∧ ch.val ≤ 122) ∨ (48 ≤ ch.val ∧ ch.val ≤ 57) ∨
    ch.val = 45 ∨ ch.val = 95

/-- A character a token may consist of: URL-safe alphabet or the padding
character `'.'`. -/
def isTokenChar (ch : Byte) : Prop := isURLSafeChar ch ∨ ch = padChar

/-! ## Lemmas: encoding/base64 -/

/-- `decodeMap` inverts the alphabet table on all 64 indices. -/
theorem decodeMap_encodeChar_fin : ∀ i : Fin 64, decodeMap (encodeChar i.val) = i.val := by decide

/-- `decodeMap (encodeChar i) = i` for a 6-bit value `i`. -/
theorem decodeMap_encodeChar (i : Nat) (h : i < 64) : decodeMap (encodeChar i) = i :=
  decodeMap_encodeChar_fin ⟨i, h⟩

/-- A number whose low eight bits are those of `a` converts to `a`. -/
theorem byte_eq (a : Byte) (n : Nat) (h : n % 256 = a.val) : byte n = a :=
  Fin.ext h

/-- Four alphabet characters at the start of a quantum are decoded as one
whole quantum. -/
theorem decodeLoop_sextets (out : List Byte) (rest : List Byte) (s0 s1 s2 s3 : Nat)
    (h0 : s0 < 64) (h1 : s1 < 64) (h2 : s2 < 64) (h3 : s3 < 64) :
    decodeLoop out [] (encodeChar s0 :: encodeChar s1 :: encodeChar s2 :: encodeChar s3 :: rest)
      = decodeLoop (out ++ quantumBytes [s0, s1, s2, s3] 4) [] rest := by
  have e0 := decodeMap_encodeChar s0 h0
  have e1 := decodeMap_encodeChar s1 h1
  have e2 := decodeMap_encodeChar s2 h2
  have e3 := decodeMap_encodeChar s3 h3
  have n0 : s0 ≠ 255 := by omega
  have n1 : s1 ≠ 255 := by omega
  have n2 : s2 ≠ 255 := by omega
  have n3 : s3 ≠ 255 := by omega
  simp [decodeLoop, e0, e1, e2, e3, n0, n1, n2, n3]

/-- The four 6-bit values that `EncodeToString` makes of three bytes are
unpacked to those three bytes. -/
theorem quantumBytes_triple (a b c : Byte) :
    quantumBytes [(a.val * 65536 + b.val * 256 + c.val) / 262144 % 64,
      (a.val * 65536 + b.val * 256 + c.val) / 4096 % 64,
      (a.val * 65536 + b.val * 256 + c.val) / 64 % 64,
      (a.val * 65536 + b.val * 256 + c.val) % 64] 4 = [a, b, c] := by
  have ha := a.isLt
  have hb := b.isLt
  have hc := c.isLt
  simp only [quantumBytes, List.getD_cons_zero, List.getD_cons_succ, List.take]
  refine congrArg₂ _ (byte_eq _ _ ?_) (congrArg₂ _ (byte_eq _ _ ?_) (congrArg₂ _ (byte_eq _ _ ?_) rfl)) <;> omega

/-- Two characters and two padding characters decode to one byte, whatever
the low four bits of the second character are. -/
theorem decodeLoop_pad2 (out : List Byte) (s0 s1 : Nat) (h0 : s0 < 64) (h1 : s1 < 64) :
    decodeLoop out [] [encodeChar s0, encodeChar s1, padChar, padChar]
      = .ok (out ++ [byte (s0 * 4 + s1 / 16)]) := by
  have e0 := decodeMap_encodeChar s0 h0
  have e1 := decodeMap_encodeChar s1 h1
  have n0 : s0 ≠ 255 := by omega
  have n1 : s1 ≠ 255 := by omega
  have hp : decodeMap padChar = 255 := by decide
  have hq1 : padChar ≠ 10 := by decide
  have hq2 : padChar ≠ 13 := by decide
  simp [decodeLoop, skipNewlines, quantumBytes, e0, e1, hp, n0, n1, hq1, hq2]
  apply Fin.ext
  simp only [byte]
  omega

/-- Three characters and one padding character decode to two bytes, whatever
the low two bits of the third character are. -/
theorem decodeLoop_pad1 (out : List Byte) (s0 s1 s2 : Nat) (h0 : s0 < 64) (h1 : s1 < 64)
    (h2 : s2 < 64) :
    decodeLoop out [] [encodeChar s0, encodeChar s1, encodeChar s2, padChar]
      = .ok (out ++ [byte (s0 * 4 + s1 / 16), byte (s1 * 16 + s2 / 4)]) := by
  have e0 := decodeMap_encodeChar s0 h0
  have e1 := decodeMap_encodeChar s1 h1
  have e2 := decodeMap_encodeChar s2 h2
  have n0 : s0 ≠ 255 := by omega
  have n1 : s1 ≠ 255 := by omega
  have n2 : s2 ≠ 255 := by omega
  have hp : decodeMap padChar = 255 := by decide
  have hq1 : padChar ≠ 10 := by decide
  have hq2 : padChar ≠ 13 := by decide
  simp [decodeLoop, skipNewlines, quantumBytes, e0, e1, e2, hp, n0, n1, n2, hq1, hq2]
  constructor <;> (apply Fin.ext; simp only [byte]; omega)

/-- `DecodeString` inverts `EncodeToString`. -/
theorem decodeLoop_encode (bs : List Byte) :
    ∀ out : List Byte, decodeLoop out [] (EncodeToString bs) = .ok (out ++ bs) := by
  induction bs using EncodeToString.induct with
  | case1 a b c tl ih =>
    intro out
    simp only [EncodeToString]
    rw [decodeLoop_sextets _ _ _ _ _ _ (Nat.mod_lt _ (by decide)) (Nat.mod_lt _ (by decide))
      (Nat.mod_lt _ (by decide)) (Nat.mod_lt _ (by decide)), quantumBytes_triple, ih]
    simp
  | case2 a b =>
    intro out
    have ha := a.isLt
    have hb := b.isLt
    simp only [EncodeToString]
    rw [decodeLoop_pad1 _ _ _ _ (Nat.mod_lt _ (by decide)) (Nat.mod_lt _ (by decide))
      (Nat.mod_lt _ (by decide))]
    congr 2
    refine congrArg₂ _ (byte_eq _ _ ?_) (congrArg₂ _ (byte_eq _ _ ?_) rfl) <;> omega
  | case3 a =>
    intro out
    have ha := a.isLt
    simp only [EncodeToString]
    rw [decodeLoop_pad2 _ _ _ (Nat.mod_lt _ (by decide)) (Nat.mod_lt _ (by decide))]
    congr 2
    refine congrArg₂ _ (byte_eq _ _ ?_) rfl
    omega
  | case4 => intro out; simp [decodeLoop]

theorem DecodeString_EncodeToString (bs : List Byte) :
    DecodeString (EncodeToString bs) = .ok bs := by
  simpa [DecodeString] using decodeLoop_encode bs []

/-! ## Lemmas: CBC mode, HMAC and padding -/

/-- XOR with the same byte twice is the identity. -/
theorem xor_cancel (a b : Byte) : (a ^^^ b) ^^^ b = a := by
  apply Fin.ext
  have ha : a.val < 2 ^ 8 := a.isLt
  have hb : b.val < 2 ^ 8 := b.isLt
  have h1 : (a.val ^^^ b.val) % 256 = a.val ^^^ b.val :=
    Nat.mod_eq_of_lt (Nat.xor_lt_two_pow ha hb)
  show ((a.val ^^^ b.val) % 256 ^^^ b.val) % 256 = a.val
  rw [h1, Nat.xor_assoc, Nat.xor_self, Nat.xor_zero]
  exact Nat.mod_eq_of_lt ha

/-- XOR with the same block twice is the identity. -/
theorem xorBytes_cancel : ∀ (x p : List Byte), x.length ≤ p.length →
    xorBytes (xorBytes x p) p = x
  | [], _, _ => by simp [xorBytes]
  | _ :: _, [], h => by simp at h
  | a :: x, b :: p, h => by
    have ih := xorBytes_cancel x p (by simpa using h)
    simp only [xorBytes, List.zipWith_cons_cons] at ih ⊢
    rw [xor_cancel, ih]

/-- Length of `xorBytes`. -/
theorem xorBytes_length (x p : List Byte) : (xorBytes x p).length = min x.length p.length := by
  simp [xorBytes]

/-- An HMAC-SHA256 value has 32 bytes. -/
theorem hmacSum_length (c : Crypto) (hc : c.Valid) (key msg : List Byte) :
    (hmacSum c key msg).length = 32 := by
  simp only [hmacSum]
  exact hc.sha256_size _

/-- CBC encryption of `n` whole blocks gives `n` whole blocks. -/
theorem encryptBlocks_length (enc : List Byte → List Byte)
    (henc : ∀ b, b.length = 16 → (enc b).length = 16) :
    ∀ (n : Nat) (prev src : List Byte), prev.length = 16 → src.length = 16 * n →
      (encryptBlocks enc n prev src).length = 16 * n
  | 0, _, _, _, _ => by simp [encryptBlocks]
  | n + 1, prev, src, hp, hs => by
    have hx : (xorBytes (src.take BlockSize) prev).length = 16 := by
      simp [xorBytes_length, BlockSize, hp, hs]
    have hb := henc _ hx
    simp only [encryptBlocks, List.length_append]
    rw [hb, encryptBlocks_length enc henc n _ _ hb (by simp [BlockSize, hs]; omega)]
    omega

/-- CBC decryption of `n` whole blocks gives `n` whole blocks. -/
theorem decryptBlocks_length (dec : List Byte → List Byte)
    (hdec : ∀ b, b.length = 16 → (dec b).length = 16) :
    ∀ (n : Nat) (prev src : List Byte), prev.length = 16 → src.length = 16 * n →
      (decryptBlocks dec n prev src).length = 16 * n
  | 0, _, _, _, _ => by simp [decryptBlocks]
  | n + 1, prev, src, hp, hs => by
    have ht : (src.take BlockSize).length = 16 := by simp [BlockSize, hs]
    have hb := hdec _ ht
    simp only [decryptBlocks, List.length_append, xorBytes_length]
    rw [hb, hp, decryptBlocks_length dec hdec n _ _ ht (by simp [BlockSize, hs]; omega)]
    omega

/-- CBC decryption inverts CBC encryption under the same IV. -/
theorem decryptBlocks_encryptBlocks (enc dec : List Byte → List Byte)
    (henc : ∀ b, b.length = 16 → (enc b).length = 16)
    (hinv : ∀ b, b.length = 16 → dec (enc b) = b) :
    ∀ (n : Nat) (prev src : List Byte), prev.length = 16 → src.length = 16 * n →
      decryptBlocks dec n prev (encryptBlocks enc n prev src) = src
  | 0, _, src, _, hs => by
    have : src = [] := List.length_eq_zero.mp (by simpa using hs)
    simp [decryptBlocks, this]
  | n + 1, prev, src, hp, hs => by
    have hx : (xorBytes (src.take BlockSize) prev).length = 16 := by
      simp [xorBytes_length, BlockSize, hp, hs]
    have hb := henc _ hx
    have hb' : (enc (xorBytes (src.take BlockSize) prev)).length = BlockSize := hb
    have hd : (src.drop BlockSize).length = 16 * n := by simp [BlockSize, hs]; omega
    simp only [encryptBlocks, decryptBlocks]
    rw [List.take_left' hb', List.drop_left' hb', hinv _ hx,
      xorBytes_cancel _ _ (by simp [BlockSize, hp]),
      decryptBlocks_encryptBlocks enc dec henc hinv n _ _ hb hd, List.take_append_drop]

/-- The padded length is the next multiple of the block size strictly above
the length of the data. -/
theorem Pad_length (data : List Byte) :
    (Pad data).length = BlockSize * (data.length / BlockSize + 1) := by
  simp only [Pad, BlockSize, List.length_append, List.length_replicate]
  omega

/-- The last byte of `Pad data` is the padding size. -/
theorem Pad_getLast (data : List Byte) :
    (Pad data).getD ((Pad data).length - 1) 0 = byte (16 - data.length % 16) := by
  simp only [Pad, BlockSize, List.length_append, List.length_replicate]
  rw [List.getD_eq_getElem?_getD, List.getElem?_append_right (by omega)]
  rw [List.getElem?_replicate]
  have : data.length + (16 - data.length % 16) - 1 - data.length < 16 - data.length % 16 := by
    omega
  simp [this]

/-- `Unpad` removes what `Pad` added. -/
theorem Unpad_Pad (data : List Byte) : Unpad (Pad data) = some data := by
  have hp : (16 - data.length % 16) % 256 = 16 - data.length % 16 := by omega
  have hpos : 0 < 16 - data.length % 16 := by omega
  have hlast : (Pad data).getD ((Pad data).length - 1) 0 = byte (16 - data.length % 16) := by
    simp only [Pad, BlockSize, List.length_append, List.length_replicate]
    rw [List.getD_eq_getElem?_getD, List.getElem?_append_right (by omega)]
    rw [List.getElem?_replicate]
    have : data.length + (16 - data.length % 16) - 1 - data.length < 16 - data.length % 16 := by
      omega
    simp [this]
  simp only [Unpad, hlast]
  simp only [Pad, BlockSize, List.length_append, List.length_replicate, byte, hp]
  have h1 : ¬ (data.length + (16 - data.length % 16) = 0) := by omega
  have h2 : ¬ (data.length + (16 - data.length % 16) < 16 - data.length % 16) := by omega
  simp only [h1, h2, if_false]
  congr 1
  have h3 : data.length + (16 - data.length % 16) - (16 - data.length % 16) = data.length := by omega
  rw [h3, List.take_left']
  rfl

/-! ## Lemmas: the steps of `Tokenize` and `Load` -/

/-- The stand-in primitives satisfy the contracts of `Crypto.Valid`. -/
theorem toyCrypto_valid : toyCrypto.Valid where
  sha256_size m := by simp [toyCrypto, toySha]
  encrypt_size k b h := by simp [toyCrypto, toyEncrypt, h]
  decrypt_size k b h := by simp [toyCrypto, toyDecrypt, h]
  decrypt_encrypt k b _ _ := by
    simp only [toyCrypto, toyDecrypt, toyEncrypt, List.reverse_reverse, List.map_map]
    have : ((fun x : Byte => x ^^^ k.getD 0 0) ∘ fun x => x ^^^ k.getD 0 0) = id := by
      funext x
      exact xor_cancel x _
    rw [this, List.map_id]

/-- `aes.NewCipher` accepts keys of 16, 24 and 32 bytes. -/
theorem NewCipher_ok {E : Type} (key : List Byte)
    (hk : key.length = 16 ∨ key.length = 24 ∨ key.length = 32) :
    (NewCipher key : Except (Error E) (List Byte)) = .ok key := by
  simp [NewCipher, hk]

/-- The signed block `HMAC || s` made by `Tokenize` passes lines 102-109 of
`Load` under the same signing key. -/
theorem verifyAndUnmarshal_signed {P E : Type} (c : Crypto) (hc : c.Valid) (codec : Codec P E)
    (t : Tokenizer) (s : List Byte) (out : P) :
    verifyAndUnmarshal c codec t (hmacSum c t.SigningKey s ++ s) out
      = .ret (codec.unmarshal s out).1 ((codec.unmarshal s out).2.map .codec) := by
  have hl := hmacSum_length c hc t.SigningKey s
  have hl' : (hmacSum c t.SigningKey s).length = Size := hl
  simp only [verifyAndUnmarshal, List.take_left' hl', List.drop_left' hl']
  simp [Size, hl]

/-- Decrypting what `cbcEncrypt` produced from whole blocks gives the blocks back. -/
theorem cbcDecrypt_cbcEncrypt (c : Crypto) (hc : c.Valid) (key iv src : List Byte)
    (hk : key.length = 16 ∨ key.length = 24 ∨ key.length = 32) (hiv : iv.length = 16)
    (hs : src.length % 16 = 0) :
    ∃ body, cbcEncrypt c key iv src = some body ∧ body.length = src.length ∧
      cbcDecrypt c key iv body = some src := by
  have hn : src.length = 16 * (src.length / 16) := by omega
  have hbl := encryptBlocks_length (c.aesEncrypt key) (hc.encrypt_size key) _ iv src hiv hn
  refine ⟨encryptBlocks (c.aesEncrypt key) (src.length / 16) iv src, ?_, by omega, ?_⟩
  · simp [cbcEncrypt, BlockSize, hs]
  · have h2 : (encryptBlocks (c.aesEncrypt key) (src.length / 16) iv src).length % 16 = 0 := by
      omega
    have h3 : (encryptBlocks (c.aesEncrypt key) (src.length / 16) iv src).length / 16
        = src.length / 16 := by omega
    simp only [cbcDecrypt, BlockSize, h2, h3, ne_eq, not_true_eq_false, if_false]
    rw [decryptBlocks_encryptBlocks _ _ (hc.encrypt_size key)
      (fun b hb => hc.decrypt_encrypt key b hk hb) _ iv src hiv hn]

/-- Lines 85-101 without an encryption key, after the text decoding succeeded. -/
theorem loadSignedToken_unencrypted {E : Type} (c : Crypto) (t : Tokenizer)
    (payload signedToken : List Byte) (ht : t.EncryptionKey = none)
    (hd : DecodeString payload = .ok signedToken) :
    (loadSignedToken c t payload : GoResult (List Byte) (Error E)) = .ret signedToken none := by
  simp only [loadSignedToken, hd, ht]

/-- Lines 85-101 with a valid encryption key on an envelope whose ciphertext
decrypts to `decrypted` ending in a byte that is at most 16. -/
theorem loadSignedToken_encrypted {E : Type} (c : Crypto) (t : Tokenizer)
    (key payload envelope decrypted signedToken : List Byte)
    (ht : t.EncryptionKey = some key)
    (hk : key.length = 16 ∨ key.length = 24 ∨ key.length = 32)
    (hd : DecodeString payload = .ok envelope) (hl : 16 ≤ envelope.length)
    (hdec : cbcDecrypt c key (envelope.take 16) (envelope.drop 16) = some decrypted)
    (hne : decrypted.length ≠ 0)
    (hlast : (decrypted.getD (decrypted.length - 1) 0).val ≤ 16)
    (hun : Unpad decrypted = some signedToken) :
    (loadSignedToken c t payload : GoResult (List Byte) (Error E)) = .ret signedToken none := by
  have h1 : ¬ (envelope.length < BlockSize) := by simp [BlockSize]; omega
  have h2 : ¬ ((decrypted.getD (decrypted.length - 1) 0).val > 16) := by omega
  have hdec' : cbcDecrypt c key (envelope.take BlockSize) (envelope.drop BlockSize)
      = some decrypted := hdec
  simp only [loadSignedToken, hd, ht, NewCipher_ok key hk, if_neg h1, hdec', if_neg hne,
    if_neg h2, hun]

/-- `Load` without an encryption key, after the text decoding succeeded. -/
theorem Load_unencrypted {P E : Type} (c : Crypto) (codec : Codec P E) (t : Tokenizer)
    (payload signedToken : List Byte) (token : P) (ht : t.EncryptionKey = none)
    (hd : DecodeString payload = .ok signedToken) :
    Load c codec t payload token = verifyAndUnmarshal c codec t signedToken token := by
  simp only [Load, loadSignedToken_unencrypted c t payload signedToken ht hd]

/-- `Load` with a valid encryption key on an envelope whose ciphertext
decrypts to `decrypted` ending in a byte that is at most 16. -/
theorem Load_encrypted {P E : Type} (c : Crypto) (codec : Codec P E) (t : Tokenizer)
    (key payload envelope decrypted signedToken : List Byte) (token : P)
    (ht : t.EncryptionKey = some key)
    (hk : key.length = 16 ∨ key.length = 24 ∨ key.length = 32)
    (hd : DecodeString payload = .ok envelope) (hl : 16 ≤ envelope.length)
    (hdec : cbcDecrypt c key (envelope.take 16) (envelope.drop 16) = some decrypted)
    (hne : decrypted.length ≠ 0)
    (hlast : (decrypted.getD (decrypted.length - 1) 0).val ≤ 16)
    (hun : Unpad decrypted = some signedToken) :
    Load c codec t payload token = verifyAndUnmarshal c codec t signedToken token := by
  simp only [Load, loadSignedToken_encrypted c t key payload envelope decrypted signedToken ht hk
    hd hl hdec hne hlast hun]

/-- What `Tokenize` returns without an encryption key. -/
theorem Tokenize_unencrypted {P E : Type} (c : Crypto) (codec : Codec P E) (t : Tokenizer)
    (entropy : List Byte) (p : P) (s : List Byte) (ht : t.EncryptionKey = none)
    (hm : codec.marshal p = .ok s) :
    Tokenize c codec t entropy p = .ret (EncodeToString (hmacSum c t.SigningKey s ++ s)) none := by
  simp only [Tokenize, hm, ht]

/-- Lines 102-109 on a block of at least 32 bytes whose MAC field differs from
the recomputed MAC. -/
theorem verifyAndUnmarshal_mismatch {P E : Type} (c : Crypto) (codec : Codec P E)
    (t : Tokenizer) (b : List Byte) (out : P) (hl : 32 ≤ b.length)
    (hne : b.take 32 ≠ hmacSum c t.SigningKey (b.drop 32)) :
    verifyAndUnmarshal c codec t b out = .ret out (some .ErrInvalidSignature) := by
  have h1 : ¬ (b.length < Size) := by simp [Size]; omega
  have hne' : b.take Size ≠ hmacSum c t.SigningKey (b.drop Size) := hne
  simp only [verifyAndUnmarshal, if_neg h1, if_pos hne']

/-- Lines 102-109 on a block of at least 32 bytes whose MAC field equals the
recomputed MAC. -/
theorem verifyAndUnmarshal_match {P E : Type} (c : Crypto) (codec : Codec P E)
    (t : Tokenizer) (b : List Byte) (out : P) (hl : 32 ≤ b.length)
    (heq : b.take 32 = hmacSum c t.SigningKey (b.drop 32)) :
    verifyAndUnmarshal c codec t b out
      = .ret (codec.unmarshal (b.drop 32) out).1 ((codec.unmarshal (b.drop 32) out).2.map .codec) := by
  have h1 : ¬ (b.length < Size) := by simp [Size]; omega
  have heq' : ¬ (b.take Size ≠ hmacSum c t.SigningKey (b.drop Size)) := not_not.mpr heq
  simp only [verifyAndUnmarshal, if_neg h1, if_neg heq']
  rfl

/-- An error of the serializer is never `ErrInvalidSignature`. -/
theorem codec_error_ne {P E : Type} (v out : P) (e : Option E) :
    (GoResult.ret v (e.map Error.codec) : GoResult P (Error E))
      ≠ .ret out (some .ErrInvalidSignature) := by
  cases e <;> simp

/-- HMAC pads a key of at most 64 bytes with zeros, so a key and the same key
followed by a zero byte give the same MAC. -/
theorem hmacSum_key_zero (c : Crypto) (msg : List Byte) :
    hmacSum c [97] msg = hmacSum c [97, 0] msg := rfl

/-- `EncodedLen`: four characters for every started group of three bytes. -/
theorem EncodeToString_length (bs : List Byte) :
    (EncodeToString bs).length = (bs.length + 2) / 3 * 4 := by
  induction bs using EncodeToString.induct with
  | case1 a b c tl ih => simp only [EncodeToString, List.length_cons, ih]; omega
  | case2 a b => simp [EncodeToString]
  | case3 a => simp [EncodeToString]
  | case4 => simp [EncodeToString]

/-- A Tokenizer with which `Tokenize` returned a token has no encryption key
or one of a valid length. -/
theorem Tokenize_key_ok {P E : Type} (c : Crypto) (codec : Codec P E) (t : Tokenizer)
    (entropy tok : List Byte) (p : P) (ht : Tokenize c codec t entropy p = .ret tok none) :
    t.EncryptionKey = none ∨
      ∃ key, t.EncryptionKey = some key ∧ (key.length = 16 ∨ key.length = 24 ∨ key.length = 32) := by
  cases hkey : t.EncryptionKey with
  | none => exact Or.inl rfl
  | some key =>
    refine Or.inr ⟨key, rfl, ?_⟩
    by_contra hk
    have hnc : (NewCipher key : Except (Error E) (List Byte)) = .error (.keySize key.length) := by
      simp [NewCipher, hk]
    simp only [Tokenize, hkey, hnc] at ht
    split at ht <;> simp at ht

/-- An error returned by lines 85-101 of `Load`, for a Tokenizer without
encryption key or with one of a valid length, is the text-decoding error or
`ErrInvalidSignature`. -/
theorem loadSignedToken_error {E : Type} (c : Crypto) (t : Tokenizer) (payload v : List Byte)
    (e : Error E)
    (hkey : t.EncryptionKey = none ∨
      ∃ key, t.EncryptionKey = some key ∧ (key.length = 16 ∨ key.length = 24 ∨ key.length = 32))
    (h : loadSignedToken c t payload = .ret v (some e)) :
    e = .corruptInput ∨ e = .ErrInvalidSignature := by
  unfold loadSignedToken at h
  split at h
  · simp at h; exact Or.inl h.2.symm
  · rcases hkey with hk | ⟨key, hk, hlen⟩
    · simp [hk] at h
    · simp only [hk, NewCipher_ok key hlen] at h
      split at h
      · simp at h
      · split at h
        · simp at h
        · split at h
          · simp at h
          · split at h
            · simp at h; exact Or.inr h.2.symm
            · split at h <;> simp at h

/-- The outcomes of `Load` for a Tokenizer without encryption key or with one
of a valid length: a panic, the text-decoding error, `ErrInvalidSignature`, or
the result of deserializing `jwt` where the signed block that lines 85-101
produced is `HMAC(signingKey, jwt) || jwt`. -/
theorem Load_outcomes {P E : Type} (c : Crypto) (codec : Codec P E) (t : Tokenizer)
    (payload : List Byte) (out : P)
    (hkey : t.EncryptionKey = none ∨
      ∃ key, t.EncryptionKey = some key ∧ (key.length = 16 ∨ key.length = 24 ∨ key.length = 32)) :
    Load c codec t payload out = .panic ∨
    Load c codec t payload out = .ret out (some .corruptInput) ∨
    Load c codec t payload out = .ret out (some .ErrInvalidSignature) ∨
    ∃ jwt, (loadSignedToken c t payload : GoResult (List Byte) (Error E))
        = .ret (hmacSum c t.SigningKey jwt ++ jwt) none ∧
      Load c codec t payload out
        = .ret (codec.unmarshal jwt out).1 ((codec.unmarshal jwt out).2.map .codec) := by
  unfold Load
  cases hs : (loadSignedToken c t payload : GoResult (List Byte) (Error E)) with
  | panic => exact Or.inl rfl
  | ret v err =>
    cases err with
    | some e =>
      rcases loadSignedToken_error c t payload v e hkey hs with he | he
      · exact Or.inr (Or.inl (by simp [he]))
      · exact Or.inr (Or.inr (Or.inl (by simp [he])))
    | none =>
      simp only
      by_cases hl : v.length < 32
      · left
        have hl' : v.length < Size := hl
        simp only [verifyAndUnmarshal, if_pos hl']
      · have hl2 : 32 ≤ v.length := by omega
        by_cases hmac : v.take 32 = hmacSum c t.SigningKey (v.drop 32)
        · right; right; right
          refine ⟨v.drop 32, ?_, verifyAndUnmarshal_match c codec t v out hl2 hmac⟩
          rw [← hmac, List.take_append_drop]
        · right; right; left
          exact verifyAndUnmarshal_mismatch c codec t v out hl2 hmac

/-- `Unpad` strips nothing from a non-empty slice that ends in a zero byte. -/
theorem Unpad_zero (d : List Byte) (hne : d.length ≠ 0)
    (hz : (d.getD (d.length - 1) 0).val = 0) : Unpad d = some d := by
  simp only [Unpad, if_neg hne, hz]
  simp

/-- Lines 102-109 do not panic on a block of at least 32 bytes. -/
theorem verifyAndUnmarshal_ne_panic {P E : Type} (c : Crypto) (codec : Codec P E)
    (t : Tokenizer) (b : List Byte) (out : P) (hl : 32 ≤ b.length) :
    verifyAndUnmarshal c codec t b out ≠ .panic := by
  by_cases h : b.take 32 = hmacSum c t.SigningKey (b.drop 32)
  · rw [verifyAndUnmarshal_match c codec t b out hl h]; simp
  · rw [verifyAndUnmarshal_mismatch c codec t b out hl h]; simp

/-- The token `Tokenize` returns with a valid encryption key is the encoding
of `IV || body` where `body` has the length of the padded signed block. -/
theorem Tokenize_encrypted_shape {P E : Type} (c : Crypto) (codec : Codec P E)
    (signingKey key entropy tok : List Byte) (p : P)
    (ht : Tokenize c codec (New signingKey (some key)) entropy p = .ret tok none) :
    ∃ s body, codec.marshal p = .ok s ∧ 16 ≤ entropy.length ∧
      cbcEncrypt c key (entropy.take 16) (Pad (hmacSum c signingKey s ++ s)) = some body ∧
      tok = EncodeToString (entropy.take 16 ++ body) := by
  have hkey := Tokenize_key_ok c codec _ entropy tok p ht
  rcases hkey with h | ⟨key1, h1, hk⟩
  · simp [New] at h
  · have hkk : key1 = key := by simp [New] at h1; exact h1.symm
    subst hkk
    cases hm : codec.marshal p with
    | error e => simp [Tokenize, hm] at ht
    | ok s =>
      by_cases he : entropy.length < 16
      · simp [Tokenize, hm, New, NewCipher_ok key1 hk, readIV, BlockSize, he] at ht
      · have hrd : readIV entropy = some (entropy.take 16) := by simp [readIV, BlockSize, he]
        cases hb : cbcEncrypt c key1 (entropy.take 16) (Pad (hmacSum c signingKey s ++ s)) with
        | none => simp [Tokenize, hm, New, NewCipher_ok key1 hk, hrd, hb] at ht
        | some body =>
          simp only [Tokenize, hm, New, NewCipher_ok key1 hk, hrd, hb] at ht
          refine ⟨s, body, rfl, by omega, hb, ?_⟩
          injection ht with h2 _
          exact h2.symm

/-- Loading, under any valid encryption key, a token that `Tokenize` made
under a valid encryption key never panics: the envelope holds at least three
whole ciphertext blocks, so at least 32 bytes remain after unpadding. -/
theorem Load_other_key_ne_panic {P E : Type} (c : Crypto) (hc : c.Valid) (codec : Codec P E)
    (signingKey1 signingKey2 e1 e2 entropy tok : List Byte) (p out : P)
    (hk1 : e1.length = 16 ∨ e1.length = 24 ∨ e1.length = 32)
    (hk2 : e2.length = 16 ∨ e2.length = 24 ∨ e2.length = 32)
    (ht : Tokenize c codec (New signingKey1 (some e1)) entropy p = .ret tok none) :
    Load c codec (New signingKey2 (some e2)) tok out ≠ .panic := by
  obtain ⟨s, body, _, he, henc, htok⟩ :=
    Tokenize_encrypted_shape c codec signingKey1 e1 entropy tok p ht
  subst htok
  have hiv : (entropy.take 16).length = 16 := by simp [he]
  have hml := hmacSum_length c hc signingKey1 s
  have hpl : (Pad (hmacSum c signingKey1 s ++ s)).length
      = 16 * ((32 + s.length) / 16 + 1) := by
    rw [Pad_length]; simp [BlockSize, hml]
  obtain ⟨body1, henc1, hblen, _⟩ := cbcDecrypt_cbcEncrypt c hc e1 (entropy.take 16)
    (Pad (hmacSum c signingKey1 s ++ s)) hk1 hiv (by rw [hpl]; omega)
  have hbb : body1 = body := by rw [henc1] at henc; exact Option.some.inj henc
  subst hbb
  have hbl : body1.length = 16 * ((32 + s.length) / 16 + 1) := by rw [hblen, hpl]
  have hdl := decryptBlocks_length (c.aesDecrypt e2) (hc.decrypt_size e2) _
    (entropy.take 16) body1 hiv hbl
  have hmod : ¬ (body1.length % BlockSize ≠ 0) := by simp [BlockSize, hbl]
  have hdiv : body1.length / BlockSize = (32 + s.length) / 16 + 1 := by
    simp only [BlockSize, hbl]; omega
  have hdec : cbcDecrypt c e2 (entropy.take 16) body1
      = some (decryptBlocks (c.aesDecrypt e2) ((32 + s.length) / 16 + 1)
          (entropy.take 16) body1) := by
    simp only [cbcDecrypt, if_neg hmod, hdiv]
  have hdec2 : cbcDecrypt c e2 ((entropy.take 16 ++ body1).take 16)
      ((entropy.take 16 ++ body1).drop 16)
      = some (decryptBlocks (c.aesDecrypt e2) ((32 + s.length) / 16 + 1)
          (entropy.take 16) body1) := by
    rw [List.take_left' hiv, List.drop_left' hiv]; exact hdec
  have hdec3 : cbcDecrypt c e2 ((entropy.take 16 ++ body1).take BlockSize)
      ((entropy.take 16 ++ body1).drop BlockSize)
      = some (decryptBlocks (c.aesDecrypt e2) ((32 + s.length) / 16 + 1)
          (entropy.take 16) body1) := hdec2
  generalize decryptBlocks (c.aesDecrypt e2) ((32 + s.length) / 16 + 1)
    (entropy.take 16) body1 = d at hdl hdec2 hdec3
  have hne : d.length ≠ 0 := by omega
  have hl : 16 ≤ (entropy.take 16 ++ body1).length := by simp [he]
  by_cases hlast : (d.getD (d.length - 1) 0).val > 16
  · have h1 : ¬ ((entropy.take 16 ++ body1).length < BlockSize) := by
      simp only [BlockSize]; omega
    simp only [Load, loadSignedToken, DecodeString_EncodeToString, New, NewCipher_ok e2 hk2,
      if_neg h1, hdec3, if_neg hne, if_pos hlast]
    simp
  · have hle : (d.getD (d.length - 1) 0).val ≤ 16 := by omega
    have hun : Unpad d = some (d.take (d.length - (d.getD (d.length - 1) 0).val)) := by
      have h2 : ¬ (d.length < (d.getD (d.length - 1) 0).val) := by omega
      simp only [Unpad, if_neg hne, if_neg h2]
    rw [Load_encrypted c codec (New signingKey2 (some e2)) e2 _ _ d _ out rfl hk2
      (DecodeString_EncodeToString _) hl hdec2 hne hle hun]
    apply verifyAndUnmarshal_ne_panic
    rw [List.length_take]
    omega

/-- `aes.NewCipher` rejects every other key length with `KeySizeError`. -/
theorem NewCipher_error {E : Type} (key : List Byte)
    (hk : ¬ (key.length = 16 ∨ key.length = 24 ∨ key.length = 32)) :
    (NewCipher key : Except (Error E) (List Byte)) = .error (.keySize key.length) := by
  simp only [NewCipher, if_neg hk]

/-- `EncodeToString` is injective: different byte strings have different
encodings. -/
theorem EncodeToString_injective (xs ys : List Byte)
    (h : EncodeToString xs = EncodeToString ys) : xs = ys := by
  have h1 := DecodeString_EncodeToString xs
  rw [h, DecodeString_EncodeToString] at h1
  injection h1 with h2
  exact h2.symm

/-- Every entry of the alphabet table is a URL-safe character. -/
theorem encodeChar_urlSafe_fin : ∀ i : Fin 64,
    (65 ≤ (encodeChar i.val).val ∧ (encodeChar i.val).val ≤ 90) ∨
    (97 ≤ (encodeChar i.val).val ∧ (encodeChar i.val).val ≤ 122) ∨
    (48 ≤ (encodeChar i.val).val ∧ (encodeChar i.val).val ≤ 57) ∨
    (encodeChar i.val).val = 45 ∨ (encodeChar i.val).val = 95 := by decide

/-- Every character `EncodeToString` looks up in the table is URL-safe. -/
theorem encodeChar_isTokenChar (i : Nat) : isTokenChar (encodeChar (i % 64)) :=
  Or.inl (encodeChar_urlSafe_fin ⟨i % 64, Nat.mod_lt _ (by decide)⟩)

/-- The padding character is a token character. -/
theorem padChar_isTokenChar : isTokenChar padChar := Or.inr rfl

/-- An encoded text consists of URL-safe characters and padding characters. -/
theorem EncodeToString_chars (bs : List Byte) : ∀ ch ∈ EncodeToString bs, isTokenChar ch := by
  induction bs using EncodeToString.induct with
  | case1 a b c tl ih =>
    intro ch hch
    simp only [EncodeToString, List.mem_cons] at hch
    rcases hch with h | h | h | h | h
    · rw [h]; exact encodeChar_isTokenChar _
    · rw [h]; exact encodeChar_isTokenChar _
    · rw [h]; exact encodeChar_isTokenChar _
    · rw [h]; exact encodeChar_isTokenChar _
    · exact ih ch h
  | case2 a b =>
    intro ch hch
    simp only [EncodeToString, List.mem_cons, List.mem_singleton] at hch
    rcases hch with h | h | h | h | h
    · rw [h]; exact encodeChar_isTokenChar _
    · rw [h]; exact encodeChar_isTokenChar _
    · rw [h]; exact encodeChar_isTokenChar _
    · rw [h]; exact padChar_isTokenChar
    · exact absurd h (List.not_mem_nil _)
  | case3 a =>
    intro ch hch
    simp only [EncodeToString, List.mem_cons, List.mem_singleton] at hch
    rcases hch with h | h | h | h | h
    · rw [h]; exact encodeChar_isTokenChar _
    · rw [h]; exact encodeChar_isTokenChar _
    · rw [h]; exact padChar_isTokenChar
    · rw [h]; exact padChar_isTokenChar
    · exact absurd h (List.not_mem_nil _)
  | case4 => intro ch hch; simp [EncodeToString] at hch

/-- A token character is none of `'='`, `'+'`, `'/'`. -/
theorem isTokenChar_excluded (ch : Byte) (h : isTokenChar ch) :
    ch ≠ 61 ∧ ch ≠ 43 ∧ ch ≠ 47 := by
  have h61 : ((61 : Byte)).val = 61 := rfl
  have h43 : ((43 : Byte)).val = 43 := rfl
  have h47 : ((47 : Byte)).val = 47 := rfl
  have hp : padChar.val = 46 := rfl
  refine ⟨?_, ?_, ?_⟩ <;> intro he <;> subst he <;>
    rcases h with (h | h | h | h | h) | h <;>
    first
    | omega
    | exact absurd h (by decide)

/-- A token returned by `Tokenize` is empty or the encoding of some bytes;
it is returned without error only in the second case. -/
theorem Tokenize_token_shape {P E : Type} (c : Crypto) (codec : Codec P E) (t : Tokenizer)
    (entropy tok : List Byte) (p : P) (err : Option (Error E))
    (ht : Tokenize c codec t entropy p = .ret tok err) :
    (tok = [] ∧ err ≠ none) ∨ (∃ bs, tok = EncodeToString bs ∧ err = none) := by
  unfold Tokenize at ht
  split at ht
  · injection ht with h1 h2
    exact Or.inl ⟨h1.symm, by rw [← h2]; simp⟩
  · split at ht
    · injection ht with h1 h2
      exact Or.inr ⟨_, h1.symm, h2.symm⟩
    · split at ht
      · injection ht with h1 h2
        exact Or.inl ⟨h1.symm, by rw [← h2]; simp⟩
      · split at ht
        · injection ht with h1 h2
          exact Or.inl ⟨h1.symm, by rw [← h2]; simp⟩
        · dsimp only at ht
          split at ht
          · simp at ht
          · injection ht with h1 h2
            exact Or.inr ⟨_, h1.symm, h2.symm⟩

/-- What `Tokenize` returns with an encryption key of a valid length and an
entropy source that delivers 16 bytes: the encoding of `IV || body`, where
`body` is the CBC encryption of the padded signed block and has its length. -/
theorem Tokenize_encrypted {P E : Type} (c : Crypto) (hc : c.Valid) (codec : Codec P E)
    (signingKey key entropy : List Byte) (p : P) (s : List Byte)
    (hk : key.length = 16 ∨ key.length = 24 ∨ key.length = 32) (he : 16 ≤ entropy.length)
    (hm : codec.marshal p = .ok s) :
    ∃ body, cbcEncrypt c key (entropy.take 16) (Pad (hmacSum c signingKey s ++ s)) = some body ∧
      body.length = (Pad (hmacSum c signingKey s ++ s)).length ∧
      cbcDecrypt c key (entropy.take 16) body = some (Pad (hmacSum c signingKey s ++ s)) ∧
      Tokenize c codec (New signingKey (some key)) entropy p
        = .ret (EncodeToString (entropy.take 16 ++ body)) none := by
  have hiv : (entropy.take 16).length = 16 := by simp [he]
  have hpl : (Pad (hmacSum c signingKey s ++ s)).length % 16 = 0 := by
    rw [Pad_length]; simp [BlockSize]
  obtain ⟨body, henc, hblen, hdec⟩ :=
    cbcDecrypt_cbcEncrypt c hc key (entropy.take 16) _ hk hiv hpl
  have hrd : readIV entropy = some (entropy.take 16) := by
    simp [readIV, BlockSize]; omega
  refine ⟨body, henc, hblen, hdec, ?_⟩
  simp [Tokenize, New, hm, NewCipher_ok key hk, hrd, henc]

/-- `Load` with the keys of `Tokenize` on the envelope `IV || body` whose body
decrypts to the padded signed block returns the result of deserializing the
serialized bytes. -/
theorem Load_padded_envelope {P E : Type} (c : Crypto) (hc : c.Valid) (codec : Codec P E)
    (signingKey key iv body s : List Byte) (out : P)
    (hk : key.length = 16 ∨ key.length = 24 ∨ key.length = 32) (hiv : iv.length = 16)
    (hdec : cbcDecrypt c key iv body = some (Pad (hmacSum c signingKey s ++ s))) :
    Load c codec (New signingKey (some key)) (EncodeToString (iv ++ body)) out
      = .ret (codec.unmarshal s out).1 ((codec.unmarshal s out).2.map .codec) := by
  have hlast : ((Pad (hmacSum c signingKey s ++ s)).getD
      ((Pad (hmacSum c signingKey s ++ s)).length - 1) 0).val ≤ 16 := by
    rw [Pad_getLast]
    simp only [byte]
    omega
  have hplpos : (Pad (hmacSum c signingKey s ++ s)).length ≠ 0 := by
    rw [Pad_length]; simp [BlockSize]
  have hl : 16 ≤ (iv ++ body).length := by simp [hiv]
  have hdec2 : cbcDecrypt c key ((iv ++ body).take 16) ((iv ++ body).drop 16)
      = some (Pad (hmacSum c signingKey s ++ s)) := by
    rw [List.take_left' hiv, List.drop_left' hiv]; exact hdec
  rw [Load_encrypted c codec (New signingKey (some key)) key _ _ _ _ out rfl
    hk (DecodeString_EncodeToString _) hl hdec2 hplpos hlast (Unpad_Pad _)]
  exact verifyAndUnmarshal_signed c hc codec (New signingKey (some key)) s out

/-- Lines 85-101 of `Load` never return an error of the serializer. -/
theorem loadSignedToken_error_ne_codec {E : Type} (c : Crypto) (t : Tokenizer)
    (payload v : List Byte) (e : Error E) (e1 : E)
    (h : loadSignedToken c t payload = .ret v (some e)) : e ≠ .codec e1 := by
  unfold loadSignedToken at h
  split at h
  · simp at h; rw [← h.2]; simp
  · split at h
    · simp at h
    · split at h
      · rename_i e2 hnc
        simp at h
        rw [← h.2]
        unfold NewCipher at hnc
        split at hnc
        · simp at hnc
        · injection hnc with h3
          rw [← h3]; simp
      · split at h
        · simp at h
        · split at h
          · simp at h
          · split at h
            · simp at h
            · split at h
              · simp at h; rw [← h.2]; simp
              · split at h <;> simp at h

/-- `Unpad` reads only the length `l` of its argument, the last byte `p` and
the first `l - p` bytes. -/
theorem Unpad_congr (d1 d2 : List Byte) (l : Nat) (p : Byte)
    (hlen1 : d1.length = l) (hlen2 : d2.length = l)
    (hlast1 : d1.getD (l - 1) 0 = p) (hlast2 : d2.getD (l - 1) 0 = p)
    (hagree : d1.take (l - p.val) = d2.take (l - p.val)) :
    Unpad d1 = Unpad d2 := by
  simp only [Unpad, hlen1, hlen2, hlast1, hlast2, hagree]

/-- Lines 85-101 of `Load` with a valid encryption key, in terms of the
decrypted bytes. -/
theorem loadSignedToken_decrypted {E : Type} (c : Crypto) (t : Tokenizer)
    (key payload envelope decrypted : List Byte)
    (ht : t.EncryptionKey = some key)
    (hk : key.length = 16 ∨ key.length = 24 ∨ key.length = 32)
    (hd : DecodeString payload = .ok envelope) (hl : 16 ≤ envelope.length)
    (hdec : cbcDecrypt c key (envelope.take 16) (envelope.drop 16) = some decrypted) :
    (loadSignedToken c t payload : GoResult (List Byte) (Error E)) =
      if decrypted.length = 0 then .panic
      else if (decrypted.getD (decrypted.length - 1) 0).val > 16 then
        .ret [] (some .ErrInvalidSignature)
      else
        match Unpad decrypted with
        | none => .panic
        | some signedToken1 => .ret signedToken1 none := by
  have h1 : ¬ (envelope.length < BlockSize) := by simp [BlockSize]; omega
  have hdec' : cbcDecrypt c key (envelope.take BlockSize) (envelope.drop BlockSize)
      = some decrypted := hdec
  simp only [loadSignedToken, hd, ht, NewCipher_ok key hk, if_neg h1, hdec']

/-- `Load` with a valid encryption key panics in `CryptBlocks` when what
follows the first 16 decoded bytes is not a whole number of blocks. -/
theorem Load_partial_block_panic {P E : Type} (c : Crypto) (codec : Codec P E)
    (signingKey key tok b : List Byte) (out : P)
    (hk : key.length = 16 ∨ key.length = 24 ∨ key.length = 32)
    (hd : DecodeString tok = .ok b) (hl : 16 ≤ b.length) (hr : (b.length - 16) % 16 ≠ 0) :
    Load c codec (New signingKey (some key)) tok out = .panic := by
  have hl' : ¬ (b.length < BlockSize) := by simp [BlockSize]; omega
  have hdl : (b.drop BlockSize).length = b.length - 16 := by simp [BlockSize]
  have hc : cbcDecrypt c key (b.take BlockSize) (b.drop BlockSize) = none := by
    simp [cbcDecrypt, hdl, BlockSize, hr]
  simp only [Load, loadSignedToken, hd, New, NewCipher_ok key hk, if_neg hl', hc]

/-! ## Lemmas: decoding a token with one character replaced -/

/-- C1. Unencrypted round trip: with no encryption key, for every signing key
and every payload `p` that the serializer round-trips (it marshals to `s`, and
unmarshalling `s` into `out` yields `p` without error), `Tokenize` returns a
token without error and `Load` of that token with the same Tokenizer returns
no error and leaves `p` in the output. -/
theorem C1_unencrypted_round_trip {P E : Type} (c : Crypto) (hc : c.Valid) (codec : Codec P E)
    (signingKey entropy : List Byte) (p out : P) (s : List Byte)
    (hm : codec.marshal p = .ok s) (hu : codec.unmarshal s out = (p, none)) :
    ∃ tok, Tokenize c codec (New signingKey none) entropy p = .ret tok none ∧
      Load c codec (New signingKey none) tok out = .ret p none := by
  refine ⟨EncodeToString (hmacSum c signingKey s ++ s), ?_, ?_⟩
  · simp [Tokenize, New, hm]
  · have h := verifyAndUnmarshal_signed c hc codec (New signingKey none) s out
    rw [hu] at h
    rw [Load_unencrypted c codec (New signingKey none) _ _ out rfl
      (DecodeString_EncodeToString _)]
    exact h

/-- Witness of C1 on the stand-in primitives and the byte-string serializer. -/
theorem C1_unencrypted_round_trip_witness :
    ∃ tok, Tokenize toyCrypto rawCodec (New [1, 2, 3] none) [] [123, 125] = .ret tok none ∧
      Load toyCrypto rawCodec (New [1, 2, 3] none) tok [] = .ret [123, 125] none :=
  C1_unencrypted_round_trip toyCrypto toyCrypto_valid rawCodec [1, 2, 3] [] [123, 125] []
    [123, 125] rfl rfl

/-- C2. Encrypted round trip: for every signing key, every encryption key of
16, 24 or 32 bytes, every 16-byte IV drawn from the entropy source and every
payload `p` that the serializer round-trips, `Tokenize` returns a token that
decodes to `IV || body`; the CBC decryption of `body` ends in a byte that is
at most 16, `Unpad` of it is exactly `MAC || s`, and `Load` with the same
Tokenizer returns no error and leaves `p` in the output. -/
theorem C2_encrypted_round_trip {P E : Type} (c : Crypto) (hc : c.Valid) (codec : Codec P E)
    (signingKey encryptionKey entropy : List Byte) (p out : P) (s : List Byte)
    (hk : encryptionKey.length = 16 ∨ encryptionKey.length = 24 ∨ encryptionKey.length = 32)
    (he : 16 ≤ entropy.length)
    (hm : codec.marshal p = .ok s) (hu : codec.unmarshal s out = (p, none)) :
    ∃ tok body decrypted,
      Tokenize c codec (New signingKey (some encryptionKey)) entropy p = .ret tok none ∧
      DecodeString tok = .ok (entropy.take 16 ++ body) ∧
      cbcDecrypt c encryptionKey (entropy.take 16) body = some decrypted ∧
      (decrypted.getD (decrypted.length - 1) 0).val ≤ 16 ∧
      Unpad decrypted = some (hmacSum c signingKey s ++ s) ∧
      Load c codec (New signingKey (some encryptionKey)) tok out = .ret p none := by
  have hiv : (entropy.take 16).length = 16 := by simp [he]
  have hiv' : (entropy.take 16).length = BlockSize := hiv
  have hpl : (Pad (hmacSum c signingKey s ++ s)).length % 16 = 0 := by
    rw [Pad_length]; simp [BlockSize]
  obtain ⟨body, henc, hblen, hdec⟩ :=
    cbcDecrypt_cbcEncrypt c hc encryptionKey (entropy.take 16) _ hk hiv hpl
  have hrd : readIV entropy = some (entropy.take 16) := by
    simp [readIV, BlockSize]; omega
  have hlast : ((Pad (hmacSum c signingKey s ++ s)).getD
      ((Pad (hmacSum c signingKey s ++ s)).length - 1) 0).val ≤ 16 := by
    rw [Pad_getLast]
    simp only [byte]
    omega
  have hplpos : (Pad (hmacSum c signingKey s ++ s)).length ≠ 0 := by
    rw [Pad_length]; simp [BlockSize]
  have hv : verifyAndUnmarshal c codec (New signingKey (some encryptionKey))
      (hmacSum c signingKey s ++ s) out = .ret p none := by
    have h := verifyAndUnmarshal_signed c hc codec (New signingKey (some encryptionKey)) s out
    rw [hu] at h
    exact h
  refine ⟨EncodeToString (entropy.take 16 ++ body), body, _, ?_,
    DecodeString_EncodeToString _, hdec, hlast, Unpad_Pad _, ?_⟩
  · simp [Tokenize, New, hm, NewCipher_ok encryptionKey hk, hrd, henc]
  · have hl : 16 ≤ (entropy.take 16 ++ body).length := by simp [he]
    have hdec2 : cbcDecrypt c encryptionKey ((entropy.take 16 ++ body).take 16)
        ((entropy.take 16 ++ body).drop 16) = some (Pad (hmacSum c signingKey s ++ s)) := by
      rw [List.take_left' hiv, List.drop_left' hiv]; exact hdec
    rw [Load_encrypted c codec (New signingKey (some encryptionKey)) encryptionKey _ _ _ _ out rfl
      hk (DecodeString_EncodeToString _) hl hdec2 hplpos hlast (Unpad_Pad _), hv]

/-- Witness of C2 on the stand-in primitives, a 16-byte encryption key and the
byte-string serializer. -/
theorem C2_encrypted_round_trip_witness :
    ∃ tok body decrypted,
      Tokenize toyCrypto rawCodec (New [1, 2, 3] (some (List.replicate 16 7)))
        (List.replicate 16 9) [123, 125] = .ret tok none ∧
      DecodeString tok = .ok ((List.replicate 16 9).take 16 ++ body) ∧
      cbcDecrypt toyCrypto (List.replicate 16 7) ((List.replicate 16 9).take 16) body
        = some decrypted ∧
      (decrypted.getD (decrypted.length - 1) 0).val ≤ 16 ∧
      Unpad decrypted = some (hmacSum toyCrypto [1, 2, 3] [123, 125] ++ [123, 125]) ∧
      Load toyCrypto rawCodec (New [1, 2, 3] (some (List.replicate 16 7))) tok []
        = .ret [123, 125] none :=
  C2_encrypted_round_trip toyCrypto toyCrypto_valid rawCodec [1, 2, 3] (List.replicate 16 7)
    (List.replicate 16 9) [123, 125] [] [123, 125] (by decide) (by decide) rfl rfl

/-- C3 (as amended). Signing key mismatch: for every payload with serialized
bytes `s` and every two signing keys `k1`, `k2`, loading with a Tokenizer
keyed by `k2` (no encryption key) the token that `Tokenize` produced under
`k1` returns `ErrInvalidSignature`, with the output untouched, exactly when
the MACs of `s` under `k2` and under `k1` differ; when they are equal `Load`
returns the result of deserializing `s`. -/
theorem C3_signing_key_mismatch {P E : Type} (c : Crypto) (hc : c.Valid) (codec : Codec P E)
    (k1 k2 entropy : List Byte) (p out : P) (s tok : List Byte)
    (hm : codec.marshal p = .ok s)
    (ht : Tokenize c codec (New k1 none) entropy p = .ret tok none) :
    (hmacSum c k2 s ≠ hmacSum c k1 s →
      Load c codec (New k2 none) tok out = .ret out (some .ErrInvalidSignature)) ∧
    (hmacSum c k2 s = hmacSum c k1 s →
      Load c codec (New k2 none) tok out
        = .ret (codec.unmarshal s out).1 ((codec.unmarshal s out).2.map .codec)) ∧
    (Load c codec (New k2 none) tok out = .ret out (some .ErrInvalidSignature) ↔
      hmacSum c k2 s ≠ hmacSum c k1 s) := by
  rw [Tokenize_unencrypted c codec (New k1 none) entropy p s rfl hm] at ht
  have htok : tok = EncodeToString (hmacSum c k1 s ++ s) := by
    injection ht with h1 _
    exact h1.symm
  subst htok
  have hl1 : (hmacSum c k1 s).length = 32 := hmacSum_length c hc k1 s
  have hlen : 32 ≤ (hmacSum c k1 s ++ s).length := by simp [hl1]
  have hload := Load_unencrypted c codec (New k2 none) _ _ out rfl
    (DecodeString_EncodeToString (hmacSum c k1 s ++ s))
  have htake : (hmacSum c k1 s ++ s).take 32 = hmacSum c k1 s := List.take_left' hl1
  have hdrop : (hmacSum c k1 s ++ s).drop 32 = s := List.drop_left' hl1
  have hA : hmacSum c k2 s ≠ hmacSum c k1 s →
      Load c codec (New k2 none) (EncodeToString (hmacSum c k1 s ++ s)) out
        = .ret out (some .ErrInvalidSignature) := by
    intro hne
    rw [hload]
    apply verifyAndUnmarshal_mismatch c codec (New k2 none) _ out hlen
    rw [htake, hdrop]
    exact fun h => hne h.symm
  have hB : hmacSum c k2 s = hmacSum c k1 s →
      Load c codec (New k2 none) (EncodeToString (hmacSum c k1 s ++ s)) out
        = .ret (codec.unmarshal s out).1 ((codec.unmarshal s out).2.map .codec) := by
    intro heq
    rw [hload, verifyAndUnmarshal_match c codec (New k2 none) _ out hlen
      (by rw [htake, hdrop]; exact heq.symm), hdrop]
  refine ⟨hA, hB, ?_, hA⟩
  intro h heq
  rw [hB heq] at h
  exact codec_error_ne _ _ _ h

/-- Witness of C3 (as amended): under the stand-in primitives the keys
`[1, 2, 3]` and `[9]` give different MACs for the payload `{}`. -/
theorem C3_signing_key_mismatch_witness :
    Load toyCrypto rawCodec (New [9] none)
      (EncodeToString (hmacSum toyCrypto [1, 2, 3] [123, 125] ++ [123, 125])) []
        = .ret [] (some .ErrInvalidSignature) :=
  (C3_signing_key_mismatch toyCrypto toyCrypto_valid rawCodec [1, 2, 3] [9] [] [123, 125] []
    [123, 125] _ rfl rfl).1 (by decide)

/-- Counterexample to C3 as stated: the signing keys `"a"` and `"a\x00"` are
different, yet for every choice of the primitives a token made for the
payload `{}` under the first key loads without error under the second. -/
theorem C3_counterexample :
    ([97] : List Byte) ≠ [97, 0] ∧
    ∀ c : Crypto, c.Valid →
      ∃ tok, Tokenize c rawCodec (New [97] none) [] [123, 125] = .ret tok none ∧
        Load c rawCodec (New [97, 0] none) tok [] = .ret [123, 125] none := by
  refine ⟨by decide, fun c hc => ⟨_, Tokenize_unencrypted c rawCodec (New [97] none) [] [123, 125]
    [123, 125] rfl rfl, ?_⟩⟩
  show Load c rawCodec (New [97, 0] none)
    (EncodeToString (hmacSum c [97] [123, 125] ++ [123, 125])) [] = .ret [123, 125] none
  rw [hmacSum_key_zero, Load_unencrypted c rawCodec (New [97, 0] none) _ _ [] rfl
    (DecodeString_EncodeToString _)]
  exact verifyAndUnmarshal_signed c hc rawCodec (New [97, 0] none) [123, 125] []

/-- C6. MAC verification in `Load` (no encryption key): for every token string
that text-decodes to bytes `b` of length at least 32, `Load` returns
`ErrInvalidSignature` if and only if `b[0:32]` differs from
`HMAC-SHA256(signingKey, b[32:])`; on a mismatch the result does not depend on
the deserializer and the output is untouched, and on a match `Load` returns
exactly the result of deserializing `b[32:]` into the output. -/
theorem C6_mac_verification {P E : Type} (c : Crypto) (codec : Codec P E)
    (signingKey tok b : List Byte) (out : P)
    (hd : DecodeString tok = .ok b) (hl : 32 ≤ b.length) :
    ((∃ v, Load c codec (New signingKey none) tok out = .ret v (some .ErrInvalidSignature)) ↔
      b.take 32 ≠ hmacSum c signingKey (b.drop 32)) ∧
    (b.take 32 ≠ hmacSum c signingKey (b.drop 32) →
      ∀ codec1 : Codec P E,
        Load c codec1 (New signingKey none) tok out = .ret out (some .ErrInvalidSignature)) ∧
    (b.take 32 = hmacSum c signingKey (b.drop 32) →
      Load c codec (New signingKey none) tok out
        = .ret (codec.unmarshal (b.drop 32) out).1
            ((codec.unmarshal (b.drop 32) out).2.map .codec)) := by
  have hA : b.take 32 ≠ hmacSum c signingKey (b.drop 32) →
      ∀ codec1 : Codec P E,
        Load c codec1 (New signingKey none) tok out = .ret out (some .ErrInvalidSignature) := by
    intro hne codec1
    rw [Load_unencrypted c codec1 (New signingKey none) tok b out rfl hd]
    exact verifyAndUnmarshal_mismatch c codec1 (New signingKey none) b out hl hne
  have hB : b.take 32 = hmacSum c signingKey (b.drop 32) →
      Load c codec (New signingKey none) tok out
        = .ret (codec.unmarshal (b.drop 32) out).1
            ((codec.unmarshal (b.drop 32) out).2.map .codec) := by
    intro heq
    rw [Load_unencrypted c codec (New signingKey none) tok b out rfl hd]
    exact verifyAndUnmarshal_match c codec (New signingKey none) b out hl heq
  refine ⟨⟨?_, fun hne => ⟨out, hA hne codec⟩⟩, hA, hB⟩
  rintro ⟨v, hv⟩ heq
  rw [hB heq] at hv
  cases hu : (codec.unmarshal (b.drop 32) out).2 <;> simp [hu] at hv

/-- Witness of C6: a token that decodes to 34 bytes whose first MAC byte was
replaced by zero is rejected. -/
theorem C6_mac_verification_witness :
    Load toyCrypto rawCodec (New [1, 2, 3] none)
      (EncodeToString (0 :: (hmacSum toyCrypto [1, 2, 3] [123, 125]).drop 1 ++ [123, 125])) []
        = .ret [] (some .ErrInvalidSignature) :=
  (C6_mac_verification toyCrypto rawCodec [1, 2, 3] _ _ []
    (DecodeString_EncodeToString _) (by decide)).2.1 (by decide) rawCodec

/-- C7 (behaviour of the code). Short envelope: with an encryption key of a
valid length, `Load` panics on every token string that text-decodes to fewer
than 16 bytes; it does not return an error. -/
theorem C7_short_envelope_panics {P E : Type} (c : Crypto) (codec : Codec P E)
    (signingKey encryptionKey tok b : List Byte) (out : P)
    (hk : encryptionKey.length = 16 ∨ encryptionKey.length = 24 ∨ encryptionKey.length = 32)
    (hd : DecodeString tok = .ok b) (hl : b.length < 16) :
    Load c codec (New signingKey (some encryptionKey)) tok out = .panic := by
  have hl' : b.length < BlockSize := hl
  simp only [Load, loadSignedToken, hd, New, NewCipher_ok encryptionKey hk, if_pos hl']

/-- Witness of C7: the empty token string. -/
theorem C7_short_envelope_panics_witness :
    Load toyCrypto rawCodec (New [1, 2, 3] (some (List.replicate 16 7))) [] [] = .panic :=
  C7_short_envelope_panics toyCrypto rawCodec [1, 2, 3] (List.replicate 16 7) [] [] []
    (by decide) rfl (by decide)

/-- C8 (behaviour of the code). Envelope block alignment: with an encryption
key of a valid length, `Load` panics on every token string that text-decodes
to at least 16 bytes whose remainder after the 16-byte IV is empty or not a
multiple of 16; it does not return an error. -/
theorem C8_unaligned_envelope_panics {P E : Type} (c : Crypto) (codec : Codec P E)
    (signingKey encryptionKey tok b : List Byte) (out : P)
    (hk : encryptionKey.length = 16 ∨ encryptionKey.length = 24 ∨ encryptionKey.length = 32)
    (hd : DecodeString tok = .ok b) (hl : 16 ≤ b.length)
    (hr : b.length - 16 = 0 ∨ (b.length - 16) % 16 ≠ 0) :
    Load c codec (New signingKey (some encryptionKey)) tok out = .panic := by
  have hl' : ¬ (b.length < BlockSize) := by simp [BlockSize]; omega
  have hdl : (b.drop BlockSize).length = b.length - 16 := by simp [BlockSize]
  simp only [Load, loadSignedToken, hd, New, NewCipher_ok encryptionKey hk, if_neg hl']
  by_cases hm : (b.length - 16) % 16 = 0
  · have h0 : b.length - 16 = 0 := by
      rcases hr with h | h
      · exact h
      · exact absurd hm h
    have hc : cbcDecrypt c encryptionKey (b.take BlockSize) (b.drop BlockSize) = some [] := by
      simp [cbcDecrypt, hdl, h0, BlockSize, decryptBlocks]
    simp [hc]
  · have hc : cbcDecrypt c encryptionKey (b.take BlockSize) (b.drop BlockSize) = none := by
      simp [cbcDecrypt, hdl, BlockSize, hm]
    simp [hc]

/-- Witness of C8: the token string `AAAAAAAAAAAAAAAAAAAAAA..`, which decodes
to an IV of 16 zero bytes and no ciphertext. -/
theorem C8_unaligned_envelope_panics_witness :
    Load toyCrypto rawCodec (New [1, 2, 3] (some (List.replicate 16 7)))
      (List.replicate 22 65 ++ [46, 46]) [] = .panic :=
  C8_unaligned_envelope_panics toyCrypto rawCodec [1, 2, 3] (List.replicate 16 7)
    (List.replicate 22 65 ++ [46, 46]) (List.replicate 16 0) []
    (by decide) (by decide) (by decide) (by decide)

/-- C9 (behaviour of the code). Padding byte zero: with an encryption key of a
valid length, on a well-formed envelope whose decrypted bytes `d` end in the
byte 0, `Load` does not return `ErrInvalidSignature` for the padding: it
strips nothing and continues with the MAC check on `d`; when `d[0:32]` is the
MAC of `d[32:]` it returns the result of deserializing `d[32:]`. -/
theorem C9_zero_padding_accepted {P E : Type} (c : Crypto) (codec : Codec P E)
    (signingKey encryptionKey tok envelope d : List Byte) (out : P)
    (hk : encryptionKey.length = 16 ∨ encryptionKey.length = 24 ∨ encryptionKey.length = 32)
    (hd : DecodeString tok = .ok envelope) (hl : 16 ≤ envelope.length)
    (hdec : cbcDecrypt c encryptionKey (envelope.take 16) (envelope.drop 16) = some d)
    (hne : d.length ≠ 0) (hz : (d.getD (d.length - 1) 0).val = 0) :
    Load c codec (New signingKey (some encryptionKey)) tok out
      = verifyAndUnmarshal c codec (New signingKey (some encryptionKey)) d out ∧
    (32 ≤ d.length → d.take 32 = hmacSum c signingKey (d.drop 32) →
      Load c codec (New signingKey (some encryptionKey)) tok out
        = .ret (codec.unmarshal (d.drop 32) out).1
            ((codec.unmarshal (d.drop 32) out).2.map .codec)) := by
  have h := Load_encrypted c codec (New signingKey (some encryptionKey)) encryptionKey tok
    envelope d d out rfl hk hd hl hdec hne (by omega) (Unpad_zero d hne hz)
  refine ⟨h, fun h32 hmac => ?_⟩
  rw [h]
  exact verifyAndUnmarshal_match c codec (New signingKey (some encryptionKey)) d out h32 hmac

set_option maxRecDepth 100000 in
/-- Witness of C9: a token whose decrypted bytes end in 0 and carry a valid
MAC is accepted. -/
theorem C9_zero_padding_accepted_witness :
    Load toyCrypto rawCodec (New [1, 2, 3] (some (List.replicate 16 7)))
      (EncodeToString zeroPadEnvelope) [] = .ret zeroTail none :=
  (C9_zero_padding_accepted toyCrypto rawCodec [1, 2, 3] (List.replicate 16 7)
    (EncodeToString zeroPadEnvelope) zeroPadEnvelope
    (hmacSum toyCrypto [1, 2, 3] zeroTail ++ zeroTail) []
    (by decide) (DecodeString_EncodeToString _) (by decide) (by decide) (by decide)
    (by decide)).2 (by decide) (by decide)

/-- C10 (behaviour of the code). Short signed block: whenever the signed block
that lines 85-101 of `Load` produce (the decoded bytes without encryption key,
the unpadded decrypted bytes with one) is shorter than the 32-byte digest,
`Load` panics; it does not return an error. -/
theorem C10_short_signed_block_panics {P E : Type} (c : Crypto) (codec : Codec P E)
    (t : Tokenizer) (tok signedToken : List Byte) (out : P)
    (hs : (loadSignedToken c t tok : GoResult (List Byte) (Error E)) = .ret signedToken none)
    (hl : signedToken.length < 32) :
    Load c codec t tok out = .panic := by
  have hl' : signedToken.length < Size := hl
  simp only [Load, hs, verifyAndUnmarshal, if_pos hl']

/-- Witness of C10: the token string `AAAA` (three zero bytes) without
encryption key. -/
theorem C10_short_signed_block_panics_witness :
    Load toyCrypto rawCodec (New [1, 2, 3] none) [65, 65, 65, 65] [] = .panic :=
  C10_short_signed_block_panics toyCrypto rawCodec (New [1, 2, 3] none) [65, 65, 65, 65]
    [0, 0, 0] [] (by decide) (by decide)

/-- C11. Key length errors surface at first use: `New` is total and only
stores the two slices; for every non-nil encryption key whose length is not
16, 24 or 32 (the empty key included), `Tokenize` of every serializable
payload returns the key error with an empty token and `Load` of every
text-decodable string returns the key error; with a key of 16, 24 or 32 bytes
neither returns a key error. -/
theorem C11_key_length_errors {P E : Type} (c : Crypto) (codec : Codec P E)
    (signingKey key entropy tok : List Byte) (p out : P) :
    (New signingKey (some key)).SigningKey = signingKey ∧
    (New signingKey (some key)).EncryptionKey = some key ∧
    (¬ (key.length = 16 ∨ key.length = 24 ∨ key.length = 32) →
      ((∃ s, codec.marshal p = .ok s) →
        Tokenize c codec (New signingKey (some key)) entropy p
          = .ret [] (some (.keySize key.length))) ∧
      ((∃ b, DecodeString tok = .ok b) →
        Load c codec (New signingKey (some key)) tok out
          = .ret out (some (.keySize key.length)))) ∧
    ((key.length = 16 ∨ key.length = 24 ∨ key.length = 32) →
      ∀ (n : Nat) (v : List Byte) (w : P),
        Tokenize c codec (New signingKey (some key)) entropy p ≠ .ret v (some (.keySize n)) ∧
        Load c codec (New signingKey (some key)) tok out ≠ .ret w (some (.keySize n))) := by
  refine ⟨rfl, rfl, fun hk => ⟨?_, ?_⟩, fun hk n v w => ⟨?_, ?_⟩⟩
  · rintro ⟨s, hm⟩
    simp only [Tokenize, hm, New, NewCipher_error key hk]
  · rintro ⟨b, hd⟩
    simp only [Load, loadSignedToken, hd, New, NewCipher_error key hk]
  · intro h
    cases hm : codec.marshal p with
    | error e => simp [Tokenize, hm] at h
    | ok s =>
      simp only [Tokenize, hm, New, NewCipher_ok key hk] at h
      split at h
      · simp at h
      · split at h <;> simp at h
  · intro h
    have hkey : (New signingKey (some key)).EncryptionKey = none ∨
        ∃ k, (New signingKey (some key)).EncryptionKey = some k ∧
          (k.length = 16 ∨ k.length = 24 ∨ k.length = 32) := Or.inr ⟨key, rfl, hk⟩
    rcases Load_outcomes c codec (New signingKey (some key)) tok out hkey with
      h1 | h1 | h1 | ⟨jwt, _, h1⟩
    · rw [h1] at h; simp at h
    · rw [h1] at h; simp at h
    · rw [h1] at h; simp at h
    · rw [h1] at h
      cases hu : (codec.unmarshal jwt out).2 <;> simp [hu] at h

/-- Witness of C11: the non-nil empty encryption key. -/
theorem C11_key_length_errors_witness :
    Tokenize toyCrypto rawCodec (New [1, 2, 3] (some [])) [] [123, 125]
        = .ret [] (some (.keySize 0)) ∧
      Load toyCrypto rawCodec (New [1, 2, 3] (some [])) [65, 65, 65, 65] []
        = .ret [] (some (.keySize 0)) :=
  ⟨((C11_key_length_errors toyCrypto rawCodec [1, 2, 3] [] [] [65, 65, 65, 65] [123, 125]
      []).2.2.1 (by decide)).1 ⟨[123, 125], rfl⟩,
   ((C11_key_length_errors toyCrypto rawCodec [1, 2, 3] [] [] [65, 65, 65, 65] [123, 125]
      []).2.2.1 (by decide)).2 ⟨[0, 0, 0], by decide⟩⟩

/-- C12. `Pad` equals its reference definition: `Pad data` is `data` followed
by `p` bytes each of value `p`, where `p = 16 - len(data) mod 16`; `p` is
between 1 and 16, the padded length is a multiple of 16 strictly greater than
the length of the data, and data of a length that is a multiple of 16
receives a full extra block. -/
theorem C12_pad_reference (data : List Byte) :
    Pad data = padReference data ∧
    Pad data = data ++ List.replicate (16 - data.length % 16) (byte (16 - data.length % 16)) ∧
    (byte (16 - data.length % 16)).val = 16 - data.length % 16 ∧
    1 ≤ 16 - data.length % 16 ∧ 16 - data.length % 16 ≤ 16 ∧
    (Pad data).length = data.length + (16 - data.length % 16) ∧
    (Pad data).length % 16 = 0 ∧ data.length < (Pad data).length ∧
    (data.length % 16 = 0 →
      16 - data.length % 16 = 16 ∧ (Pad data).length = data.length + 16) := by
  have hb : byte (16 - data.length % 16) = ⟨16 - data.length % 16, by omega⟩ := by
    apply Fin.ext
    simp only [byte]
    omega
  have hlen : (Pad data).length = data.length + (16 - data.length % 16) := by
    simp [Pad, BlockSize]
  refine ⟨?_, rfl, ?_, by omega, by omega, hlen, by omega, by omega, fun h => ⟨by omega, by omega⟩⟩
  · simp only [Pad, padReference, BlockSize, hb]
  · simp only [byte]; omega

/-- C13. `Unpad` undoes `Pad`: for every byte sequence, the empty one and
those of a length that is a multiple of 16 included, `Unpad (Pad data)` does
not panic and returns `data`. -/
theorem C13_unpad_pad (data : List Byte) :
    Unpad (Pad data) = some data ∧ Unpad (Pad []) = some [] ∧
    (data.length % 16 = 0 → (Pad data).length = data.length + 16 ∧
      Unpad (Pad data) = some data) :=
  ⟨Unpad_Pad data, Unpad_Pad [], fun h => ⟨by rw [Pad_length]; simp only [BlockSize]; omega,
    Unpad_Pad data⟩⟩

/-- C14. Wire layout: for every payload with serialized bytes `s`, the token
of unencrypted mode text-decodes to `HMAC(signingKey, s) || s` of length
`32 + len(s)`; the token of encrypted mode text-decodes to `IV || C`, where
`IV` is the 16 bytes drawn for the call, `C` is the CBC encryption under
`(encryptionKey, IV)` of `Pad(HMAC || s)`, `len(C) = len(Pad(HMAC || s))` and
the total length is `16 + 16 * (floor((32 + len(s)) / 16) + 1)`. -/
theorem C14_wire_layout {P E : Type} (c : Crypto) (hc : c.Valid) (codec : Codec P E)
    (signingKey key entropy : List Byte) (p : P) (s : List Byte)
    (hk : key.length = 16 ∨ key.length = 24 ∨ key.length = 32) (he : 16 ≤ entropy.length)
    (hm : codec.marshal p = .ok s) :
    (∃ tok, Tokenize c codec (New signingKey none) entropy p = .ret tok none ∧
      DecodeString tok = .ok (hmacSum c signingKey s ++ s) ∧
      (hmacSum c signingKey s).length = 32 ∧
      (hmacSum c signingKey s ++ s).length = 32 + s.length) ∧
    (∃ tok body, Tokenize c codec (New signingKey (some key)) entropy p = .ret tok none ∧
      DecodeString tok = .ok (entropy.take 16 ++ body) ∧
      (entropy.take 16).length = 16 ∧
      cbcEncrypt c key (entropy.take 16) (Pad (hmacSum c signingKey s ++ s)) = some body ∧
      body.length = (Pad (hmacSum c signingKey s ++ s)).length ∧
      (entropy.take 16 ++ body).length = 16 + 16 * ((32 + s.length) / 16 + 1)) := by
  have hml := hmacSum_length c hc signingKey s
  have hiv : (entropy.take 16).length = 16 := by simp [he]
  constructor
  · exact ⟨_, Tokenize_unencrypted c codec (New signingKey none) entropy p s rfl hm,
      DecodeString_EncodeToString _, hml, by simp [hml]⟩
  · obtain ⟨body, henc, hblen, _, htok⟩ :=
      Tokenize_encrypted c hc codec signingKey key entropy p s hk he hm
    refine ⟨_, body, htok, DecodeString_EncodeToString _, hiv, henc, hblen, ?_⟩
    rw [List.length_append, hiv, hblen, Pad_length]
    simp [BlockSize, hml]

/-- Witness of C14: the payload `{}` under the stand-in primitives. -/
theorem C14_wire_layout_witness :
    (∃ tok, Tokenize toyCrypto rawCodec (New [1, 2, 3] none) (List.replicate 16 9) [123, 125]
        = .ret tok none ∧
      DecodeString tok = .ok (hmacSum toyCrypto [1, 2, 3] [123, 125] ++ [123, 125]) ∧
      (hmacSum toyCrypto [1, 2, 3] [123, 125]).length = 32 ∧
      (hmacSum toyCrypto [1, 2, 3] [123, 125] ++ [123, 125]).length
        = 32 + ([123, 125] : List Byte).length) ∧
    (∃ tok body, Tokenize toyCrypto rawCodec (New [1, 2, 3] (some (List.replicate 16 7)))
        (List.replicate 16 9) [123, 125] = .ret tok none ∧
      DecodeString tok = .ok ((List.replicate 16 9).take 16 ++ body) ∧
      ((List.replicate 16 9 : List Byte).take 16).length = 16 ∧
      cbcEncrypt toyCrypto (List.replicate 16 7) ((List.replicate 16 9).take 16)
        (Pad (hmacSum toyCrypto [1, 2, 3] [123, 125] ++ [123, 125])) = some body ∧
      body.length = (Pad (hmacSum toyCrypto [1, 2, 3] [123, 125] ++ [123, 125])).length ∧
      ((List.replicate 16 9).take 16 ++ body).length
        = 16 + 16 * ((32 + ([123, 125] : List Byte).length) / 16 + 1)) :=
  C14_wire_layout toyCrypto toyCrypto_valid rawCodec [1, 2, 3] (List.replicate 16 7)
    (List.replicate 16 9) [123, 125] [123, 125] (by decide) (by decide) rfl

/-- C15. Text-safe token alphabet: every token string returned by `Tokenize`
consists only of characters of the URL-safe base64 alphabet and the padding
character `'.'`, contains none of `'='`, `'+'`, `'/'`, has a length that is a
multiple of 4, and, when returned without error, is the encoding of bytes
that it text-decodes back to. -/
theorem C15_token_alphabet {P E : Type} (c : Crypto) (codec : Codec P E) (t : Tokenizer)
    (entropy tok : List Byte) (p : P) (err : Option (Error E))
    (ht : Tokenize c codec t entropy p = .ret tok err) :
    (∀ ch ∈ tok, isURLSafeChar ch ∨ ch = padChar) ∧
    (∀ ch ∈ tok, ch ≠ 61 ∧ ch ≠ 43 ∧ ch ≠ 47) ∧
    tok.length % 4 = 0 ∧
    (err = none → ∃ bs, tok = EncodeToString bs ∧ DecodeString tok = .ok bs) := by
  rcases Tokenize_token_shape c codec t entropy tok p err ht with ⟨h1, h2⟩ | ⟨bs, h1, _⟩
  · subst h1
    exact ⟨by simp, by simp, rfl, fun h => absurd h h2⟩
  · subst h1
    refine ⟨EncodeToString_chars bs, fun ch hch => isTokenChar_excluded ch
      (EncodeToString_chars bs ch hch), ?_, fun _ => ⟨bs, rfl, DecodeString_EncodeToString bs⟩⟩
    rw [EncodeToString_length]
    omega

set_option maxRecDepth 100000 in
/-- Witness of C15: the token for `{}` under the stand-in primitives. -/
theorem C15_token_alphabet_witness :
    (∀ ch ∈ EncodeToString (hmacSum toyCrypto [1, 2, 3] [123, 125] ++ [123, 125]),
      isURLSafeChar ch ∨ ch = padChar) ∧
    (∀ ch ∈ EncodeToString (hmacSum toyCrypto [1, 2, 3] [123, 125] ++ [123, 125]),
      ch ≠ 61 ∧ ch ≠ 43 ∧ ch ≠ 47) ∧
    (EncodeToString (hmacSum toyCrypto [1, 2, 3] [123, 125] ++ [123, 125])).length % 4 = 0 ∧
    ((none : Option (Error Unit)) = none →
      ∃ bs, EncodeToString (hmacSum toyCrypto [1, 2, 3] [123, 125] ++ [123, 125])
          = EncodeToString bs ∧
        DecodeString (EncodeToString (hmacSum toyCrypto [1, 2, 3] [123, 125] ++ [123, 125]))
          = .ok bs) :=
  C15_token_alphabet toyCrypto rawCodec (New [1, 2, 3] none) []
    (EncodeToString (hmacSum toyCrypto [1, 2, 3] [123, 125] ++ [123, 125])) [123, 125] none rfl

/-- C16. IV uniqueness: for every payload that the serializer round-trips and
every valid key pair in encrypted mode, two `Tokenize` calls on the same
payload and keys that draw different IVs return different token strings, and
`Load` with the same Tokenizer returns the payload, without error, for both
tokens. -/
theorem C16_iv_uniqueness {P E : Type} (c : Crypto) (hc : c.Valid) (codec : Codec P E)
    (signingKey key entropy1 entropy2 : List Byte) (p out : P) (s : List Byte)
    (hk : key.length = 16 ∨ key.length = 24 ∨ key.length = 32)
    (he1 : 16 ≤ entropy1.length) (he2 : 16 ≤ entropy2.length)
    (hne : entropy1.take 16 ≠ entropy2.take 16)
    (hm : codec.marshal p = .ok s) (hu : codec.unmarshal s out = (p, none)) :
    ∃ tok1 tok2,
      Tokenize c codec (New signingKey (some key)) entropy1 p = .ret tok1 none ∧
      Tokenize c codec (New signingKey (some key)) entropy2 p = .ret tok2 none ∧
      tok1 ≠ tok2 ∧
      Load c codec (New signingKey (some key)) tok1 out = .ret p none ∧
      Load c codec (New signingKey (some key)) tok2 out = .ret p none := by
  obtain ⟨body1, _, _, hdec1, htok1⟩ :=
    Tokenize_encrypted c hc codec signingKey key entropy1 p s hk he1 hm
  obtain ⟨body2, _, _, hdec2, htok2⟩ :=
    Tokenize_encrypted c hc codec signingKey key entropy2 p s hk he2 hm
  have hiv1 : (entropy1.take 16).length = 16 := by simp [he1]
  have hiv2 : (entropy2.take 16).length = 16 := by simp [he2]
  refine ⟨_, _, htok1, htok2, ?_, ?_, ?_⟩
  · intro h
    have h2 := EncodeToString_injective _ _ h
    have h3 := congrArg (List.take 16) h2
    rw [List.take_left' hiv1, List.take_left' hiv2] at h3
    exact hne h3
  · rw [Load_padded_envelope c hc codec signingKey key _ body1 s out hk hiv1 hdec1, hu]
    rfl
  · rw [Load_padded_envelope c hc codec signingKey key _ body2 s out hk hiv2 hdec2, hu]
    rfl

/-- Witness of C16: the IVs of sixteen bytes 9 and of sixteen bytes 8. -/
theorem C16_iv_uniqueness_witness :
    ∃ tok1 tok2,
      Tokenize toyCrypto rawCodec (New [1, 2, 3] (some (List.replicate 16 7)))
        (List.replicate 16 9) [123, 125] = .ret tok1 none ∧
      Tokenize toyCrypto rawCodec (New [1, 2, 3] (some (List.replicate 16 7)))
        (List.replicate 16 8) [123, 125] = .ret tok2 none ∧
      tok1 ≠ tok2 ∧
      Load toyCrypto rawCodec (New [1, 2, 3] (some (List.replicate 16 7))) tok1 []
        = .ret [123, 125] none ∧
      Load toyCrypto rawCodec (New [1, 2, 3] (some (List.replicate 16 7))) tok2 []
        = .ret [123, 125] none :=
  C16_iv_uniqueness toyCrypto toyCrypto_valid rawCodec [1, 2, 3] (List.replicate 16 7)
    (List.replicate 16 9) (List.replicate 16 8) [123, 125] [] [123, 125]
    (by decide) (by decide) (by decide) (by decide) rfl rfl

/-- C17 (as amended). Output on failure: for every token string and every
Tokenizer, whenever `Load` returns a text-decoding error, a key error or
`ErrInvalidSignature`, the output is left exactly as it was before the call;
whenever it returns an error of the deserializer, the output is what the
deserializer left in it for the MAC-verified bytes. -/
theorem C17_output_on_failure {P E : Type} (c : Crypto) (codec : Codec P E) (t : Tokenizer)
    (tok : List Byte) (out v : P) (e : Error E)
    (h : Load c codec t tok out = .ret v (some e)) :
    ((∀ e1 : E, e ≠ .codec e1) → v = out) ∧
    (∀ e1 : E, e = .codec e1 →
      ∃ jwt, (loadSignedToken c t tok : GoResult (List Byte) (Error E))
          = .ret (hmacSum c t.SigningKey jwt ++ jwt) none ∧
        codec.unmarshal jwt out = (v, some e1)) := by
  unfold Load at h
  cases hs : (loadSignedToken c t tok : GoResult (List Byte) (Error E)) with
  | panic => simp [hs] at h
  | ret sb err =>
    cases err with
    | some e2 =>
      simp only [hs] at h
      injection h with h1 h2
      injection h2 with h3
      subst h3
      refine ⟨fun _ => h1.symm, fun e1 he => ?_⟩
      exact absurd he (loadSignedToken_error_ne_codec c t tok sb e2 e1 hs)
    | none =>
      simp only [hs] at h
      by_cases hl : sb.length < 32
      · have hl' : sb.length < Size := hl
        simp only [verifyAndUnmarshal, if_pos hl'] at h
        simp at h
      · have hl2 : 32 ≤ sb.length := by omega
        by_cases hmac : sb.take 32 = hmacSum c t.SigningKey (sb.drop 32)
        · rw [verifyAndUnmarshal_match c codec t sb out hl2 hmac] at h
          injection h with h1 h2
          cases hu : (codec.unmarshal (sb.drop 32) out).2 with
          | none => simp [hu] at h2
          | some e3 =>
            simp only [hu, Option.map_some'] at h2
            injection h2 with h3
            refine ⟨fun hne => absurd h3.symm (hne e3), fun e1 he => ⟨sb.drop 32, ?_, ?_⟩⟩
            · rw [← hmac, List.take_append_drop]
            · rw [← h3] at he
              injection he with h4
              rw [← h4, ← hu, ← h1]
        · rw [verifyAndUnmarshal_mismatch c codec t sb out hl2 hmac] at h
          injection h with h1 h2
          injection h2 with h3
          refine ⟨fun _ => h1.symm, fun e1 he => ?_⟩
          rw [← h3] at he
          simp at he

/-- Witness of C17 (as amended): a token that is not valid text is refused
with the text-decoding error and the output `[7]` is untouched. -/
theorem C17_output_on_failure_witness :
    Load toyCrypto rawCodec (New [1, 2, 3] none) [33] [7] = .ret [7] (some .corruptInput) ∧
    ([7] : List Byte) = [7] :=
  ⟨by decide, (C17_output_on_failure toyCrypto rawCodec (New [1, 2, 3] none) [33] [7] [7]
    .corruptInput (by decide)).1 (by intro e1; simp)⟩

/-- Counterexample to C17 as stated: for every choice of the primitives, the
token made for the payload `{` loads with a deserialization error under a
serializer that stores what it decoded before it reports the error, and the
output is no longer the empty value it was before the call. -/
theorem C17_counterexample :
    ([123] : List Byte) ≠ [] ∧
    ∀ c : Crypto, c.Valid →
      ∃ tok, Tokenize c lossyCodec (New [1, 2, 3] none) [] [123] = .ret tok none ∧
        Load c lossyCodec (New [1, 2, 3] none) tok [] = .ret [123] (some (.codec ())) := by
  refine ⟨by decide, fun c hc => ⟨_, Tokenize_unencrypted c lossyCodec (New [1, 2, 3] none) []
    [123] [123] rfl rfl, ?_⟩⟩
  rw [Load_unencrypted c lossyCodec (New [1, 2, 3] none) _ _ [] rfl
    (DecodeString_EncodeToString _)]
  exact verifyAndUnmarshal_signed c hc lossyCodec (New [1, 2, 3] none) [123] []

/-- C18. Only the last padding byte is checked: in encrypted mode, for every
two well-formed envelopes under the same keys whose decrypted bytes have the
same length `l`, the same last byte `p` in `[1, 16]` and the same first
`l - p` bytes, `Load` returns the same result; in particular, whatever the
`p - 1` bytes before the last one are, a block whose first `l - p` bytes are
`HMAC(signingKey, jwt) || jwt` is accepted and `jwt` is deserialized. -/
theorem C18_last_padding_byte_only {P E : Type} (c : Crypto) (hc : c.Valid) (codec : Codec P E)
    (signingKey key tok1 tok2 env1 env2 d1 d2 : List Byte) (l : Nat) (p : Byte) (out : P)
    (hk : key.length = 16 ∨ key.length = 24 ∨ key.length = 32)
    (hd1 : DecodeString tok1 = .ok env1) (hl1 : 16 ≤ env1.length)
    (hdec1 : cbcDecrypt c key (env1.take 16) (env1.drop 16) = some d1)
    (hd2 : DecodeString tok2 = .ok env2) (hl2 : 16 ≤ env2.length)
    (hdec2 : cbcDecrypt c key (env2.take 16) (env2.drop 16) = some d2)
    (hlen1 : d1.length = l) (hlen2 : d2.length = l) (hne : l ≠ 0)
    (hlast1 : d1.getD (l - 1) 0 = p) (hlast2 : d2.getD (l - 1) 0 = p)
    (hp1 : 1 ≤ p.val) (hp16 : p.val ≤ 16)
    (hagree : d1.take (l - p.val) = d2.take (l - p.val)) :
    Load c codec (New signingKey (some key)) tok1 out
      = Load c codec (New signingKey (some key)) tok2 out ∧
    (∀ jwt, d1.take (l - p.val) = hmacSum c signingKey jwt ++ jwt →
      Load c codec (New signingKey (some key)) tok1 out
        = .ret (codec.unmarshal jwt out).1 ((codec.unmarshal jwt out).2.map .codec)) := by
  have hs1 := @loadSignedToken_decrypted E c (New signingKey (some key)) key tok1 env1 d1
    rfl hk hd1 hl1 hdec1
  have hs2 := @loadSignedToken_decrypted E c (New signingKey (some key)) key tok2 env2 d2
    rfl hk hd2 hl2 hdec2
  have hun := Unpad_congr d1 d2 l p hlen1 hlen2 hlast1 hlast2 hagree
  constructor
  · have hs : (loadSignedToken c (New signingKey (some key)) tok1
        : GoResult (List Byte) (Error E)) = loadSignedToken c (New signingKey (some key)) tok2 := by
      rw [hs1, hs2, hlen1, hlen2, hlast1, hlast2, hun]
    simp only [Load, hs]
  · intro jwt hjwt
    have hml := hmacSum_length c hc signingKey jwt
    have htl : (d1.take (l - p.val)).length = 32 + jwt.length := by rw [hjwt]; simp [hml]
    rw [List.length_take, hlen1] at htl
    have hne1 : d1.length ≠ 0 := by omega
    have hlast : d1.getD (d1.length - 1) 0 = p := by rw [hlen1]; exact hlast1
    have hge2 : ¬ (l < p.val) := by omega
    have hun1 : Unpad d1 = some (hmacSum c signingKey jwt ++ jwt) := by
      simp only [Unpad, hlen1, hlast1, if_neg hne, if_neg hge2, hjwt]
    rw [Load_encrypted c codec (New signingKey (some key)) key tok1 env1 d1 _ out rfl hk hd1 hl1
      hdec1 hne1 (by rw [hlast]; exact hp16) hun1]
    exact verifyAndUnmarshal_signed c hc codec (New signingKey (some key)) jwt out

set_option maxRecDepth 100000 in
/-- Witness of C18: the envelope of `sloppyBlock`, whose 14 padding bytes are
thirteen zeros and a 14, loads like the envelope `Tokenize` makes, and is
accepted. -/
theorem C18_last_padding_byte_only_witness :
    Load toyCrypto rawCodec (New [1, 2, 3] (some (List.replicate 16 7)))
        (EncodeToString sloppyEnvelope) []
      = Load toyCrypto rawCodec (New [1, 2, 3] (some (List.replicate 16 7)))
        (EncodeToString paddedEnvelope) [] ∧
    Load toyCrypto rawCodec (New [1, 2, 3] (some (List.replicate 16 7)))
        (EncodeToString sloppyEnvelope) [] = .ret [123, 125] none :=
  ⟨(C18_last_padding_byte_only toyCrypto toyCrypto_valid rawCodec [1, 2, 3]
      (List.replicate 16 7) (EncodeToString sloppyEnvelope) (EncodeToString paddedEnvelope)
      sloppyEnvelope paddedEnvelope sloppyBlock
      (Pad (hmacSum toyCrypto [1, 2, 3] [123, 125] ++ [123, 125])) 48 14 []
      (by decide) (DecodeString_EncodeToString _) (by decide) (by decide)
      (DecodeString_EncodeToString _) (by decide) (by decide)
      (by decide) (by decide) (by decide) (by decide) (by decide) (by decide) (by decide)
      (by decide)).1,
   (C18_last_padding_byte_only toyCrypto toyCrypto_valid rawCodec [1, 2, 3]
      (List.replicate 16 7) (EncodeToString sloppyEnvelope) (EncodeToString paddedEnvelope)
      sloppyEnvelope paddedEnvelope sloppyBlock
      (Pad (hmacSum toyCrypto [1, 2, 3] [123, 125] ++ [123, 125])) 48 14 []
      (by decide) (DecodeString_EncodeToString _) (by decide) (by decide)
      (DecodeString_EncodeToString _) (by decide) (by decide)
      (by decide) (by decide) (by decide) (by decide) (by decide) (by decide) (by decide)
      (by decide)).2 [123, 125] (by decide)⟩

/-- C19. Unencrypted `Tokenize` is deterministic: with no encryption key, for
every signing key and serializable payload, the token does not depend on the
entropy source; it is the encoding of `HMAC(signingKey, s) || s` for the
serialized bytes `s`, so payloads with equal serialized bytes give equal
tokens and payloads with different serialized bytes give different tokens. -/
theorem C19_unencrypted_deterministic {P E : Type} (c : Crypto) (hc : c.Valid)
    (codec : Codec P E) (signingKey entropy1 entropy2 : List Byte) (p1 p2 : P)
    (s1 s2 : List Byte)
    (hm1 : codec.marshal p1 = .ok s1) (hm2 : codec.marshal p2 = .ok s2) :
    Tokenize c codec (New signingKey none) entropy1 p1
      = Tokenize c codec (New signingKey none) entropy2 p1 ∧
    Tokenize c codec (New signingKey none) entropy1 p1
      = .ret (EncodeToString (hmacSum c signingKey s1 ++ s1)) none ∧
    (s1 = s2 → Tokenize c codec (New signingKey none) entropy1 p1
      = Tokenize c codec (New signingKey none) entropy2 p2) ∧
    (s1 ≠ s2 → ∀ tok1 tok2 : List Byte,
      Tokenize c codec (New signingKey none) entropy1 p1 = .ret tok1 none →
      Tokenize c codec (New signingKey none) entropy2 p2 = .ret tok2 none → tok1 ≠ tok2) := by
  have h1 := Tokenize_unencrypted c codec (New signingKey none) entropy1 p1 s1 rfl hm1
  have h1' := Tokenize_unencrypted c codec (New signingKey none) entropy2 p1 s1 rfl hm1
  have h2 := Tokenize_unencrypted c codec (New signingKey none) entropy2 p2 s2 rfl hm2
  refine ⟨h1.trans h1'.symm, h1, fun h => ?_, fun hne tok1 tok2 ht1 ht2 heq => ?_⟩
  · rw [h1, h2, h]
  · rw [h1] at ht1
    rw [h2] at ht2
    injection ht1 with e1 _
    injection ht2 with e2 _
    rw [← e1, ← e2] at heq
    have h3 := EncodeToString_injective _ _ heq
    have hl1 : (hmacSum c (New signingKey none).SigningKey s1).length = 32 :=
      hmacSum_length c hc _ s1
    have hl2 : (hmacSum c (New signingKey none).SigningKey s2).length = 32 :=
      hmacSum_length c hc _ s2
    have h4 := congrArg (List.drop 32) h3
    rw [List.drop_left' hl1, List.drop_left' hl2] at h4
    exact hne h4

/-- Witness of C19: the payloads `{}` and `{{` under the stand-in primitives. -/
theorem C19_unencrypted_deterministic_witness :
    Tokenize toyCrypto rawCodec (New [1, 2, 3] none) [] [123, 125]
      = Tokenize toyCrypto rawCodec (New [1, 2, 3] none) (List.replicate 16 9) [123, 125] ∧
    Tokenize toyCrypto rawCodec (New [1, 2, 3] none) [] [123, 125]
      = .ret (EncodeToString (hmacSum toyCrypto [1, 2, 3] [123, 125] ++ [123, 125])) none ∧
    (([123, 125] : List Byte) = [123, 123] →
      Tokenize toyCrypto rawCodec (New [1, 2, 3] none) [] [123, 125]
        = Tokenize toyCrypto rawCodec (New [1, 2, 3] none) (List.replicate 16 9) [123, 123]) ∧
    (([123, 125] : List Byte) ≠ [123, 123] → ∀ tok1 tok2 : List Byte,
      Tokenize toyCrypto rawCodec (New [1, 2, 3] none) [] [123, 125] = .ret tok1 none →
      Tokenize toyCrypto rawCodec (New [1, 2, 3] none) (List.replicate 16 9) [123, 123]
        = .ret tok2 none → tok1 ≠ tok2) :=
  C19_unencrypted_deterministic toyCrypto toyCrypto_valid rawCodec [1, 2, 3] []
    (List.replicate 16 9) [123, 125] [123, 123] [123, 125] [123, 123] rfl rfl

/-- C20 (behaviour of the code). Tokens of another configuration: a token that
`Tokenize` made without encryption key, for a payload whose serialized length
is not a multiple of 16, makes `Load` panic in every Tokenizer that has an
encryption key of a valid length; `Load` returns neither success nor an
error. -/
theorem C20_unencrypted_token_panics {P E : Type} (c : Crypto) (hc : c.Valid)
    (codec : Codec P E) (signingKey1 signingKey2 key entropy : List Byte) (p out : P)
    (s : List Byte)
    (hk : key.length = 16 ∨ key.length = 24 ∨ key.length = 32)
    (hm : codec.marshal p = .ok s) (hs : s.length % 16 ≠ 0) :
    ∃ tok, Tokenize c codec (New signingKey1 none) entropy p = .ret tok none ∧
      Load c codec (New signingKey2 (some key)) tok out = .panic := by
  have hml := hmacSum_length c hc signingKey1 s
  refine ⟨_, Tokenize_unencrypted c codec (New signingKey1 none) entropy p s rfl hm, ?_⟩
  have hlen : ((hmacSum c (New signingKey1 none).SigningKey s) ++ s).length = 32 + s.length := by
    rw [List.length_append]
    exact congrArg (· + s.length) hml
  exact Load_partial_block_panic c codec signingKey2 key _ _ out hk
    (DecodeString_EncodeToString _) (by omega) (by omega)

/-- Witness of C20: the unencrypted token for `{}` loaded with a 16-byte
encryption key. -/
theorem C20_unencrypted_token_panics_witness :
    ∃ tok, Tokenize toyCrypto rawCodec (New [1, 2, 3] none) [] [123, 125] = .ret tok none ∧
      Load toyCrypto rawCodec (New [1, 2, 3] (some (List.replicate 16 7))) tok [] = .panic :=
  C20_unencrypted_token_panics toyCrypto toyCrypto_valid rawCodec [1, 2, 3] [1, 2, 3]
    (List.replicate 16 7) [] [123, 125] [] [123, 125] (by decide) rfl (by decide)

end Jwt
